import Mathlib

/-!
Verification of the auto-patcher core (`autopatch.py`): file discovery by
structural fingerprint, export/import alias resolution, and the patch
state machine / application engine.  Python strings are modelled as
`List Char`; Python's `re` library is modelled by an explicit
match-span oracle parameter wherever a dynamic regex pattern is used,
while the fixed small regexes of the symbol resolver are translated
directly.
-/

set_option autoImplicit false
set_option maxRecDepth 40000

/-- Strings of the patched program are modelled as lists of characters. -/
abbrev Str := List Char

/-- Conversion from Lean string literals to the character-list model. -/
def lc (s : String) : Str := s.toList

/-- Left-brace character, written via its code point. -/
def lbrace : Char := Char.ofNat 123

/-- Right-brace character, written via its code point. -/
def rbrace : Char := Char.ofNat 125

/-- Backtick character, written via its code point. -/
def btick : Char := Char.ofNat 96

/-- Double-quote character. -/
def dq : Char := '\"'

/-- Single-quote character. -/
def squo : Char := '\''

/-- Backslash character. -/
def bsl : Char := '\\'

/-- Boolean test that the first list is a prefix of the second. -/
def isPre : Str → Str → Bool
  | [], _ => true
  | _ :: _, [] => false
  | a :: xs, b :: ys => a = b && isPre xs ys

/-- Python `str.find`: index of the first occurrence of `needle` in `hay`. -/
def findSub (needle : Str) : Str → Option Nat
  | [] => if needle = [] then some 0 else none
  | c :: t =>
    if isPre needle (c :: t) then some 0
    else (findSub needle t).map (· + 1)

/-- Python `needle in hay` membership (contiguous substring). -/
def isSub (needle hay : Str) : Bool := (findSub needle hay).isSome

/-- Python `str.count` main loop for a nonempty needle: count
non-overlapping occurrences left to right.  The `fuel` argument is only
a structural-termination device; it never runs out when it starts at
the text length, because every step consumes at least one character. -/
def countLoop (needle : Str) : Nat → Str → Nat
  | _, [] => 0
  | 0, _ :: _ => 0
  | fuel + 1, c :: t =>
    if isPre needle (c :: t) then
      if needle = [] then 0
      else 1 + countLoop needle fuel ((c :: t).drop needle.length)
    else countLoop needle fuel t

/-- Python `str.count`, including the empty-needle convention. -/
def countOccs (needle hay : Str) : Nat :=
  if needle = [] then hay.length + 1 else countLoop needle hay.length hay

/-- Python `str.replace(needle, repl, 1)`: replace the first occurrence. -/
def replaceFirst (needle repl : Str) : Str → Str
  | [] => if needle = [] then repl else []
  | c :: t =>
    if isPre needle (c :: t) then repl ++ (c :: t).drop needle.length
    else c :: replaceFirst needle repl t

/-- Python slice `hay[i:j]` for nonnegative bounds (both ends clamped). -/
def pySlice (i j : Nat) (hay : Str) : Str := (hay.take j).drop i

/-- Python `str.find(needle, start)`. -/
def findFrom (needle : Str) (start : Nat) (hay : Str) : Option Nat :=
  (findSub needle (hay.drop start)).map (· + start)

-- ### Patch data model (autopatch.py, `PatchState` and `PatchDef`)

/-- PatchState enumeration of `autopatch.py`. -/
inductive PatchState where
  | NOT_APPLIED
  | APPLIED
  | CONFLICT
deriving DecidableEq, Repr

/-- PatchDef of `autopatch.py`: definition of a single patch.  `None`
fields are `none`; Python's empty string is `some []`. -/
structure PatchDef where
  name : String := ""
  file_key : String := ""
  patch_type : String := ""
  search : Option Str := none
  replace : Option Str := none
  search_regex : Option Str := none
  replace_template : Option Str := none
  function_anchor : Option Str := none
  new_body : Option Str := none
  verify_present : Option Str := none
  verify_absent : Option Str := none
deriving DecidableEq, Repr

/-- Match-span oracle standing for Python `re.finditer(pat, text)`:
the list of non-overlapping match spans `(start, end)` of the compiled
pattern, left to right.  `re.search` is its head. -/
abbrev ReFind := Str → Str → List (Nat × Nat)

/-- Oracle used where no regex field is ever consulted. -/
def noRe : ReFind := fun _ _ => []

-- ### check_patch_state (autopatch.py lines 1137-1175)

/-- Computation of `has_new` in `check_patch_state`: evidence of the
new (patched) form, with Python truthiness of the fields. -/
def hasNewForm (p : PatchDef) (content : Str) : Bool :=
  match p.verify_present with
  | some v => !v.isEmpty && isSub v content
  | none =>
    match p.new_body with
    | some nb => !nb.isEmpty && isSub nb content
    | none => false

/-- Computation of `has_old` in `check_patch_state`: evidence of the
old (unpatched) form, with Python truthiness of the fields. -/
def hasOldForm (rf : ReFind) (p : PatchDef) (content : Str) : Bool :=
  (match p.verify_absent with
   | some v => !v.isEmpty && isSub v content
   | none => false) ||
  (match p.search with
   | some s => !s.isEmpty && isSub s content
   | none => false) ||
  (match p.search_regex with
   | some r => !r.isEmpty && !(rf r content).isEmpty
   | none => false)

/-- check_patch_state: classify a patch against the current content. -/
def check_patch_state (rf : ReFind) (p : PatchDef) (content : Str) : PatchState :=
  let has_new := hasNewForm p content
  let has_old := hasOldForm rf p content
  if has_new && !has_old then PatchState.APPLIED
  else if has_old && !has_new then PatchState.NOT_APPLIED
  else if !has_old && !has_new then
    if p.replace_template = some [] then PatchState.APPLIED
    else if p.verify_present = none ∧ p.verify_absent ≠ none then PatchState.APPLIED
    else
      match p.function_anchor with
      | some a => if !a.isEmpty && isSub a content then PatchState.NOT_APPLIED
                  else PatchState.CONFLICT
      | none => PatchState.CONFLICT
  else PatchState.CONFLICT

-- ### Brace-depth scanner of _apply_function_replace (autopatch.py 1236-1283)

/-- Inner quoted-string skip loop of the scanner: advances until the
closing quote `q`, treating a backslash as escaping exactly the next
character.  Returns the remaining text (starting at the closing quote,
or `[]` when unterminated) and the number of index steps taken. -/
def skipStr (q : Char) : Str → Str × Nat
  | [] => ([], 0)
  | [c] =>
    if c = q then ([c], 0)
    else if c = bsl then ([], 2)
    else ([], 1)
  | c :: d :: t =>
    if c = q then (c :: d :: t, 0)
    else if c = bsl then ((skipStr q t).1, (skipStr q t).2 + 2)
    else ((skipStr q (d :: t)).1, (skipStr q (d :: t)).2 + 1)

/-- Remaining text after a quoted-string skip is a suffix-part of the input. -/
theorem skipStr_rest_le (q : Char) : ∀ l : Str, (skipStr q l).1.length ≤ l.length
  | [] => by simp [skipStr]
  | [c] => by
    by_cases h1 : c = q
    · simp [skipStr, h1]
    · by_cases h2 : c = bsl
      · simp only [skipStr]
        rw [if_neg h1, if_pos h2]
        simp
      · simp only [skipStr]
        rw [if_neg h1, if_neg h2]
        simp
  | c :: d :: t => by
    by_cases h1 : c = q
    · simp [skipStr, h1]
    · by_cases h2 : c = bsl
      · have ih := skipStr_rest_le q t
        simp only [skipStr]
        rw [if_neg h1, if_pos h2]
        simp only [List.length_cons]
        omega
      · have ih := skipStr_rest_le q (d :: t)
        simp only [skipStr]
        rw [if_neg h1, if_neg h2]
        simp only [List.length_cons] at ih ⊢
        omega

/-- Interpolation skip loop (`${...}` inside a template literal): raw
brace counting with nesting counter `n`, no string awareness. -/
def skipInterp : Str → Nat → Str × Nat
  | l, 0 => (l, 0)
  | [], _ + 1 => ([], 0)
  | c :: t, n + 1 =>
    let n2 := if c = lbrace then n + 2 else if c = rbrace then n else n + 1
    ((skipInterp t n2).1, (skipInterp t n2).2 + 1)

/-- Remaining text after an interpolation skip is a suffix-part of the input. -/
theorem skipInterp_rest_le : ∀ (l : Str) (n : Nat), (skipInterp l n).1.length ≤ l.length
  | _, 0 => by simp [skipInterp]
  | [], _ + 1 => by simp [skipInterp]
  | c :: t, n + 1 => by
    have ih := fun m => skipInterp_rest_le t m
    simp only [skipInterp, List.length_cons]
    exact Nat.le_succ_of_le (ih _)

/-- Template-literal skip loop of the scanner: advances until the
closing backtick, handling backslash escapes and one level of
`${...}` interpolation via `skipInterp`.  The `fuel` argument is only a
structural-termination device; it never runs out when it starts at the
text length, because every step consumes at least one character. -/
def skipTmplLoop : Nat → Str → Str × Nat
  | _, [] => ([], 0)
  | 0, l => (l, 0)
  | _ + 1, [c] =>
    if c = btick then ([c], 0)
    else if c = bsl then ([], 2)
    else ([], 1)
  | fuel + 1, c :: d :: t =>
    if c = btick then (c :: d :: t, 0)
    else if c = bsl then ((skipTmplLoop fuel t).1, (skipTmplLoop fuel t).2 + 2)
    else if c = '$' ∧ d = lbrace then
      ((skipTmplLoop fuel (skipInterp t 1).1).1,
        2 + (skipInterp t 1).2 + (skipTmplLoop fuel (skipInterp t 1).1).2)
    else ((skipTmplLoop fuel (d :: t)).1, (skipTmplLoop fuel (d :: t)).2 + 1)

/-- Template-literal skip entry point. -/
def skipTmpl (l : Str) : Str × Nat := skipTmplLoop l.length l

/-- Remaining text after a template skip is a suffix-part of the input. -/
theorem skipTmplLoop_rest_le : ∀ (fuel : Nat) (l : Str),
    (skipTmplLoop fuel l).1.length ≤ l.length
  | _, [] => by simp [skipTmplLoop]
  | 0, _ :: _ => by simp [skipTmplLoop]
  | fuel + 1, [c] => by
    by_cases h1 : c = btick
    · simp [skipTmplLoop, h1]
    · by_cases h2 : c = bsl
      · simp only [skipTmplLoop]
        rw [if_neg h1, if_pos h2]
        simp
      · simp only [skipTmplLoop]
        rw [if_neg h1, if_neg h2]
        simp
  | fuel + 1, c :: d :: t => by
    by_cases h1 : c = btick
    · simp [skipTmplLoop, h1]
    · by_cases h2 : c = bsl
      · have ih := skipTmplLoop_rest_le fuel t
        simp only [skipTmplLoop]
        rw [if_neg h1, if_pos h2]
        simp only [List.length_cons]
        omega
      · by_cases h3 : c = '$' ∧ d = lbrace
        · have h4 := skipInterp_rest_le t 1
          have ih := skipTmplLoop_rest_le fuel (skipInterp t 1).1
          simp only [skipTmplLoop]
          rw [if_neg h1, if_neg h2, if_pos h3]
          simp only [List.length_cons]
          omega
        · have ih := skipTmplLoop_rest_le fuel (d :: t)
          simp only [skipTmplLoop]
          rw [if_neg h1, if_neg h2, if_neg h3]
          simp only [List.length_cons] at ih ⊢
          omega

/-- Remaining text after a template skip is a suffix-part of the input. -/
theorem skipTmpl_rest_le (l : Str) : (skipTmpl l).1.length ≤ l.length :=
  skipTmplLoop_rest_le l.length l

/-- Main brace-matching loop of `_apply_function_replace`: from text
remainder `l` at absolute position `pos` with current depth, returns
the absolute position where depth returned to zero (the closing brace)
together with depth `0`, or the final position and a nonzero depth when
the text ran out. -/
def scanLoopFuel : Nat → Str → Nat → Int → Nat × Int
  | _, [], pos, depth => (pos, depth)
  | 0, _ :: _, pos, depth => (pos, depth)
  | fuel + 1, c :: t, pos, depth =>
    if c = lbrace then scanLoopFuel fuel t (pos + 1) (depth + 1)
    else if c = rbrace then
      if depth - 1 = 0 then (pos, depth - 1)
      else scanLoopFuel fuel t (pos + 1) (depth - 1)
    else if c = dq ∨ c = squo then
      if (skipStr c t).1 = [] then (pos + (skipStr c t).2 + 2, depth)
      else scanLoopFuel fuel (skipStr c t).1.tail (pos + (skipStr c t).2 + 2) depth
    else if c = btick then
      if (skipTmpl t).1 = [] then (pos + (skipTmpl t).2 + 2, depth)
      else scanLoopFuel fuel (skipTmpl t).1.tail (pos + (skipTmpl t).2 + 2) depth
    else scanLoopFuel fuel t (pos + 1) depth

/-- Brace-matching scan entry point.  The fuel starts at the remaining
text length and never runs out, because every loop iteration consumes
at least one character. -/
def scanLoop (l : Str) (pos : Nat) (depth : Int) : Nat × Int :=
  scanLoopFuel l.length l pos depth

-- ### apply_single_patch and _apply_function_replace (autopatch.py 1178-1299)

/-- Backward widening of the function start over an immediately
preceding window of ten characters containing an asynchronous-modifier
keyword (`_apply_function_replace`, lines 1287-1291). -/
def funcStartOf (content : Str) (idx : Nat) : Nat :=
  let pc := pySlice (idx - 10) idx content
  match findSub (lc ("async ")) pc with
  | some p => idx - (pc.length - p)
  | none => idx

/-- Replacement of a whole function body located by anchor plus
brace-depth matching (`_apply_function_replace`). -/
def apply_function_replace (p : PatchDef) (content : Str) (dry : Bool) : Option Str :=
  match p.function_anchor with
  | none => none
  | some anchor =>
    match findSub anchor content with
    | none => none
    | some idx =>
      if countOccs anchor content > 1 then none
      else
        match findFrom [lbrace] (idx + anchor.length) content with
        | none => none
        | some bs =>
          let sres := scanLoop (content.drop bs) bs 0
          if sres.2 ≠ 0 then none
          else
            let func_end := sres.1 + 1
            let func_start := funcStartOf content idx
            if dry then some content
            else
              match p.new_body with
              | none => none
              | some nb => some (content.take func_start ++ nb ++ content.drop func_end)

/-- Literal-search branch of the `statement_replace` patch type
(`apply_single_patch`, lines 1208-1214). -/
def statementLit (p : PatchDef) (content : Str) (dry : Bool) : Option Str :=
  match p.search with
  | none => none
  | some s =>
    if !isSub s content then none
    else if dry then some content
    else
      match p.replace with
      | none => none
      | some rep => some (replaceFirst s rep content)

/-- apply_single_patch: apply one patch to content, returning the
modified content, or `none` on failure. -/
def apply_single_patch (rf : ReFind) (p : PatchDef) (content : Str) (dry : Bool) :
    Option Str :=
  if p.patch_type = "text_replace" then
    match p.search with
    | none => none
    | some s =>
      if !isSub s content then none
      else if countOccs s content > 1 then none
      else if dry then some content
      else
        match p.replace with
        | none => none
        | some rep => some (replaceFirst s rep content)
  else if p.patch_type = "statement_replace" then
    match p.search_regex with
    | some r =>
      if !r.isEmpty then
        match (rf r content).head? with
        | none => none
        | some mspan =>
          if (rf r content).length > 1 then none
          else if dry then some content
          else
            match p.replace_template with
            | none => none
            | some rt => some (content.take mspan.1 ++ rt ++ content.drop mspan.2)
      else statementLit p content dry
    | none => statementLit p content dry
  else if p.patch_type = "function_replace" then
    apply_function_replace p content dry
  else none

-- ### Per-file application loop of apply_patches (autopatch.py 1302-1353)

/-- Outcome recorded for one patch inside the per-file loop. -/
inductive Outcome where
  | skippedApplied
  | conflict
  | applyFailed
  | applied
deriving DecidableEq, Repr

/-- State carried through the per-file loop of `apply_patches`:
the in-memory content, the `modified` flag, the accumulated `all_ok`
flag, and the per-patch outcomes in order. -/
structure RunSt where
  content : Str
  modified : Bool
  allOk : Bool
  outcomes : List Outcome
deriving DecidableEq, Repr

/-- Body of the per-patch loop in `apply_patches`: classify, skip on
APPLIED, record failure and continue on CONFLICT, otherwise attempt the
patch and update content/modified on success. -/
def patchStep (rf : ReFind) (dry : Bool) (st : RunSt) (p : PatchDef) : RunSt :=
  match check_patch_state rf p st.content with
  | PatchState.APPLIED =>
    { st with outcomes := st.outcomes ++ [Outcome.skippedApplied] }
  | PatchState.CONFLICT =>
    { st with allOk := false, outcomes := st.outcomes ++ [Outcome.conflict] }
  | PatchState.NOT_APPLIED =>
    match apply_single_patch rf p st.content dry with
    | none => { st with allOk := false, outcomes := st.outcomes ++ [Outcome.applyFailed] }
    | some c2 =>
      { content := c2, modified := true, allOk := st.allOk,
        outcomes := st.outcomes ++ [Outcome.applied] }

/-- Per-file portion of `apply_patches`: run every patch of one file's
batch, in order, over the evolving in-memory content. -/
def apply_patches_file (rf : ReFind) (dry : Bool) (ps : List PatchDef) (content : Str) :
    RunSt :=
  ps.foldl (patchStep rf dry) { content := content, modified := false, allOk := true, outcomes := [] }

/-- Write-back condition of `apply_patches` (line 1349):
the file is written exactly when `modified` holds and not in dry-run. -/
def fileWritten (rf : ReFind) (dry : Bool) (ps : List PatchDef) (content : Str) : Bool :=
  (apply_patches_file rf dry ps content).modified && !dry

/-- Content of the file on disk after the per-file loop: the new
in-memory content when a write happened, the original bytes otherwise. -/
def diskAfter (rf : ReFind) (dry : Bool) (ps : List PatchDef) (content : Str) : Str :=
  if fileWritten rf dry ps content then (apply_patches_file rf dry ps content).content
  else content

-- ### General lemmas about the per-file loop

/-- One step of the loop leaves the in-memory content and the modified
flag depending only on the incoming content and modified flag. -/
theorem patchStep_congr (rf : ReFind) (dry : Bool) (p : PatchDef) (st st' : RunSt)
    (hc : st'.content = st.content) (hm : st'.modified = st.modified) :
    (patchStep rf dry st' p).content = (patchStep rf dry st p).content ∧
    (patchStep rf dry st' p).modified = (patchStep rf dry st p).modified := by
  unfold patchStep
  rw [hc]
  cases check_patch_state rf p st.content with
  | APPLIED => simp [hc, hm]
  | CONFLICT => simp [hc, hm]
  | NOT_APPLIED =>
    cases apply_single_patch rf p st.content dry with
    | none => simp [hc, hm]
    | some c2 => simp

/-- One step of the loop never resurrects a failed `all_ok` flag. -/
theorem patchStep_allOk_mono (rf : ReFind) (dry : Bool) (p : PatchDef) (st : RunSt)
    (h : st.allOk = false) : (patchStep rf dry st p).allOk = false := by
  unfold patchStep
  cases check_patch_state rf p st.content with
  | APPLIED => simpa using h
  | CONFLICT => simp
  | NOT_APPLIED =>
    cases apply_single_patch rf p st.content dry with
    | none => simp
    | some c2 => simpa using h

/-- Once `all_ok` is false it stays false for the rest of the loop. -/
theorem foldl_allOk_false (rf : ReFind) (dry : Bool) :
    ∀ (ps : List PatchDef) (st : RunSt), st.allOk = false →
      (ps.foldl (patchStep rf dry) st).allOk = false
  | [], _, h => h
  | p :: ps, st, h => by
    rw [List.foldl_cons]
    exact foldl_allOk_false rf dry ps _ (patchStep_allOk_mono rf dry p st h)

/-- The content and modified flag computed by the rest of the loop do
not depend on the other components of the loop state. -/
theorem foldl_congr (rf : ReFind) (dry : Bool) :
    ∀ (ps : List PatchDef) (st st' : RunSt),
      st'.content = st.content → st'.modified = st.modified →
      (ps.foldl (patchStep rf dry) st').content = (ps.foldl (patchStep rf dry) st).content ∧
      (ps.foldl (patchStep rf dry) st').modified = (ps.foldl (patchStep rf dry) st).modified
  | [], _, _, hc, hm => ⟨hc, hm⟩
  | p :: ps, st, st', hc, hm => by
    rw [List.foldl_cons, List.foldl_cons]
    have hstep := patchStep_congr rf dry p st st' hc hm
    exact foldl_congr rf dry ps _ _ hstep.1 hstep.2

/-- Every patch of the batch leaves exactly one outcome record. -/
theorem foldl_outcomes_length (rf : ReFind) (dry : Bool) :
    ∀ (ps : List PatchDef) (st : RunSt),
      (ps.foldl (patchStep rf dry) st).outcomes.length = st.outcomes.length + ps.length
  | [], st => by simp
  | p :: ps, st => by
    rw [List.foldl_cons]
    rw [foldl_outcomes_length rf dry ps _]
    have : (patchStep rf dry st p).outcomes.length = st.outcomes.length + 1 := by
      unfold patchStep
      cases check_patch_state rf p st.content with
      | APPLIED => simp
      | CONFLICT => simp
      | NOT_APPLIED =>
        cases apply_single_patch rf p st.content dry with
        | none => simp
        | some c2 => simp
    rw [this]
    simp [List.length_cons]
    omega

/-- The `modified` flag of the loop agrees with the presence of a
successful-application outcome, provided it does so initially. -/
theorem foldl_modified_iff_applied (rf : ReFind) (dry : Bool) :
    ∀ (ps : List PatchDef) (st : RunSt),
      st.modified = st.outcomes.contains Outcome.applied →
      (ps.foldl (patchStep rf dry) st).modified =
        (ps.foldl (patchStep rf dry) st).outcomes.contains Outcome.applied
  | [], _, h => h
  | p :: ps, st, h => by
    rw [List.foldl_cons]
    apply foldl_modified_iff_applied rf dry ps
    unfold patchStep
    cases check_patch_state rf p st.content with
    | APPLIED => simp [h]
    | CONFLICT => simp [h]
    | NOT_APPLIED =>
      cases apply_single_patch rf p st.content dry with
      | none => simp [h]
      | some c2 => simp

/-- Patches classified APPLIED are skipped and change nothing. -/
theorem foldl_all_applied (rf : ReFind) (dry : Bool) :
    ∀ (ps : List PatchDef) (st : RunSt),
      (∀ p ∈ ps, check_patch_state rf p st.content = PatchState.APPLIED) →
      ps.foldl (patchStep rf dry) st =
        { st with outcomes := st.outcomes ++ ps.map (fun _ => Outcome.skippedApplied) }
  | [], st, _ => by simp
  | p :: ps, st, h => by
    have hp : check_patch_state rf p st.content = PatchState.APPLIED := h p (by simp)
    have hstep : patchStep rf dry st p =
        { st with outcomes := st.outcomes ++ [Outcome.skippedApplied] } := by
      unfold patchStep
      rw [hp]
    rw [List.foldl_cons, hstep]
    rw [foldl_all_applied rf dry ps _ (by simpa using fun q hq => h q (by simp [hq]))]
    simp

/-- Dry-run function replacement never alters the content it returns. -/
theorem apply_function_replace_dry (p : PatchDef) (c out : Str)
    (h : apply_function_replace p c true = some out) : out = c := by
  unfold apply_function_replace at h
  repeat' split at h
  all_goals simp_all

/-- Dry-run literal statement replacement never alters the content. -/
theorem statementLit_dry (p : PatchDef) (c out : Str)
    (h : statementLit p c true = some out) : out = c := by
  unfold statementLit at h
  repeat' split at h
  all_goals simp_all

/-- Dry-run patch application never alters the content it returns. -/
theorem apply_single_patch_dry (rf : ReFind) (p : PatchDef) (c out : Str)
    (h : apply_single_patch rf p c true = some out) : out = c := by
  unfold apply_single_patch at h
  repeat' split at h
  all_goals first
    | exact apply_function_replace_dry p c out h
    | exact statementLit_dry p c out h
    | simp_all

theorem patchStep_dry_content (rf : ReFind) (p : PatchDef) (st : RunSt) :
    (patchStep rf true st p).content = st.content := by
  unfold patchStep
  cases hc : check_patch_state rf p st.content with
  | APPLIED => simp
  | CONFLICT => simp
  | NOT_APPLIED =>
    cases ha : apply_single_patch rf p st.content true with
    | none => simp
    | some c2 => simpa using apply_single_patch_dry rf p st.content c2 ha

theorem foldl_dry_content (rf : ReFind) :
    ∀ (ps : List PatchDef) (st : RunSt),
      (ps.foldl (patchStep rf true) st).content = st.content
  | [], _ => rfl
  | p :: ps, st => by
    rw [List.foldl_cons, foldl_dry_content rf ps _, patchStep_dry_content]

/-- Claim C7: with dry-run enabled the applier leaves the in-memory content equal to the input, never writes the file, and the disk content is unchanged, while still producing one outcome per patch (every check runs); with dry-run disabled the file is written back exactly when some patch of the batch reported an applied change. -/
theorem c7_theorem (rf : ReFind) (ps : List PatchDef) (c : Str) :
    (apply_patches_file rf true ps c).content = c ∧
    fileWritten rf true ps c = false ∧
    diskAfter rf true ps c = c ∧
    (apply_patches_file rf true ps c).outcomes.length = ps.length ∧
    (apply_patches_file rf false ps c).outcomes.length = ps.length ∧
    fileWritten rf false ps c =
      (apply_patches_file rf false ps c).outcomes.contains Outcome.applied := by
  refine ⟨?_, ?_, ?_, ?_, ?_, ?_⟩
  · exact foldl_dry_content rf ps _
  · unfold fileWritten
    simp
  · unfold diskAfter fileWritten
    simp
  · unfold apply_patches_file
    rw [foldl_outcomes_length]
    simp
  · unfold apply_patches_file
    rw [foldl_outcomes_length]
    simp
  · unfold fileWritten
    simp only [Bool.not_false, Bool.and_true]
    exact foldl_modified_iff_applied rf false ps _ (by simp)

def c7patch : PatchDef :=
  { patch_type := "text_replace", search := some (lc ("foo")),
    replace := some (lc ("foo")), verify_present := some (lc ("zzz")) }

/-- Counterexample for claim C7 as worded: a text-replace patch whose replacement equals its search string is applied, so the file is written back, yet the in-memory content is byte-for-byte unchanged; a write can happen without any content change. -/
theorem c7_counterexample :
    fileWritten noRe false [c7patch] (lc ("xfooy")) = true ∧
    (apply_patches_file noRe false [c7patch] (lc ("xfooy"))).content = lc ("xfooy") := by
  decide

/-- Claim C2, corrected: exact characterization of check_patch_state. APPLIED holds when new-form evidence is present and old-form evidence absent, but also in extra no-evidence cases (empty replace_template, or verify_absent given without verify_present); NOT_APPLIED holds when old-form evidence is present without new-form evidence, and also in a no-evidence case where the function anchor occurs in the content; CONFLICT covers both-present and the remaining no-evidence cases. -/
theorem c2_characterization (rf : ReFind) (p : PatchDef) (c : Str) :
    (check_patch_state rf p c = PatchState.APPLIED ↔
      (hasNewForm p c = true ∧ hasOldForm rf p c = false) ∨
      (hasNewForm p c = false ∧ hasOldForm rf p c = false ∧
        (p.replace_template = some [] ∨
          (p.verify_present = none ∧ p.verify_absent ≠ none)))) ∧
    (check_patch_state rf p c = PatchState.NOT_APPLIED ↔
      (hasOldForm rf p c = true ∧ hasNewForm p c = false) ∨
      (hasNewForm p c = false ∧ hasOldForm rf p c = false ∧
        p.replace_template ≠ some [] ∧
        ¬(p.verify_present = none ∧ p.verify_absent ≠ none) ∧
        (∃ a, p.function_anchor = some a ∧ (!a.isEmpty && isSub a c) = true))) ∧
    (check_patch_state rf p c = PatchState.CONFLICT ↔
      (hasNewForm p c = true ∧ hasOldForm rf p c = true) ∨
      (hasNewForm p c = false ∧ hasOldForm rf p c = false ∧
        p.replace_template ≠ some [] ∧
        ¬(p.verify_present = none ∧ p.verify_absent ≠ none) ∧
        ¬∃ a, p.function_anchor = some a ∧ (!a.isEmpty && isSub a c) = true)) := by
  cases hn : hasNewForm p c <;> cases ho : hasOldForm rf p c
  · by_cases h1 : p.replace_template = some []
    · simp [check_patch_state, hn, ho, h1]
    · by_cases h2 : p.verify_present = none ∧ p.verify_absent ≠ none
      · simp [check_patch_state, hn, ho, h1, h2]
      · cases ha : p.function_anchor with
        | none => simp [check_patch_state, hn, ho, h1, h2, ha]
        | some a =>
          have e1 : check_patch_state rf p c =
              (if !a.isEmpty && isSub a c then PatchState.NOT_APPLIED
               else PatchState.CONFLICT) := by
            simp only [check_patch_state, hn, ho]
            simp only [Bool.not_false, Bool.false_and, Bool.true_and, Bool.and_self,
              if_true, if_false]
            rw [if_neg h1, if_neg h2, ha]
            simp
          rw [e1]
          cases hae : a.isEmpty <;> cases hsub : isSub a c <;>
            simp [hae, hsub, ha, h1, h2, hn, ho] <;>
            simp [← List.isEmpty_iff, hae] <;> tauto
  · simp [check_patch_state, hn, ho]
  · simp [check_patch_state, hn, ho]
  · simp [check_patch_state, hn, ho]

def c2patch : PatchDef :=
  { replace_template := some [], verify_absent := some (lc ("OLDPAT")) }

/-- Counterexample for claim C2 as worded: a deletion patch (empty replace_template plus verify_absent) is classified APPLIED on content carrying no new-form evidence at all. -/
theorem c2_counterexample :
    check_patch_state noRe c2patch (lc ("hello")) = PatchState.APPLIED ∧
    hasNewForm c2patch (lc ("hello")) = false := by decide

/-- Loop step on a patch classified CONFLICT: record the failure and
leave everything else unchanged. -/
theorem patchStep_conflict (rf : ReFind) (dry : Bool) (p : PatchDef) (st : RunSt)
    (h : check_patch_state rf p st.content = PatchState.CONFLICT) :
    patchStep rf dry st p =
      { st with allOk := false, outcomes := st.outcomes ++ [Outcome.conflict] } := by
  unfold patchStep
  rw [h]

/-- Claim C1, amended: a patch classified CONFLICT is skipped, leaving the content and the modified flag exactly as if the patch were absent from the batch, and forces the batch's allOk flag to false; the batch is not aborted and later patches still run. -/
theorem c1_amended (rf : ReFind) (ps1 ps2 : List PatchDef) (p : PatchDef) (c : Str)
    (h : check_patch_state rf p (apply_patches_file rf false ps1 c).content =
      PatchState.CONFLICT) :
    (apply_patches_file rf false (ps1 ++ p :: ps2) c).content =
      (apply_patches_file rf false (ps1 ++ ps2) c).content ∧
    (apply_patches_file rf false (ps1 ++ p :: ps2) c).modified =
      (apply_patches_file rf false (ps1 ++ ps2) c).modified ∧
    (apply_patches_file rf false (ps1 ++ p :: ps2) c).allOk = false := by
  have hstep := patchStep_conflict rf false p
    (ps1.foldl (patchStep rf false)
      { content := c, modified := false, allOk := true, outcomes := [] }) h
  unfold apply_patches_file
  rw [List.foldl_append, List.foldl_append, List.foldl_cons, hstep]
  set st1 := ps1.foldl (patchStep rf false)
    { content := c, modified := false, allOk := true, outcomes := [] } with hst1
  have hcongr := foldl_congr rf false ps2 st1
    { st1 with allOk := false, outcomes := st1.outcomes ++ [Outcome.conflict] } rfl rfl
  exact ⟨hcongr.1, hcongr.2, foldl_allOk_false rf false ps2 _ rfl⟩

def c1patchConf : PatchDef :=
  { patch_type := "text_replace", search := some (lc ("OLD")),
    replace := some (lc ("NEWX")), verify_present := some (lc ("NEW")),
    verify_absent := some (lc ("OLD")) }

def c1patchB : PatchDef :=
  { patch_type := "text_replace", search := some (lc ("foo")),
    replace := some (lc ("qux")), verify_present := some (lc ("qux")) }

def c1content : Str := lc ("OLD NEW foo")

/-- Counterexample for claim C1 as worded: a batch whose first patch is a CONFLICT still applies its second patch and writes the file, so the batch does not abort and the disk content does not stay unchanged. -/
theorem c1_counterexample :
    apply_patches_file noRe false [c1patchConf, c1patchB] c1content =
      { content := lc ("OLD NEW qux"), modified := true, allOk := false,
        outcomes := [Outcome.conflict, Outcome.applied] } ∧
    diskAfter noRe false [c1patchConf, c1patchB] c1content ≠ c1content := by
  decide

/-- Witness for the amended claim C1 theorem at a concrete conflicting batch. -/
theorem c1_witness :
    check_patch_state noRe c1patchConf
        (apply_patches_file noRe false [] c1content).content = PatchState.CONFLICT ∧
    ((apply_patches_file noRe false ([] ++ c1patchConf :: [c1patchB]) c1content).content =
        (apply_patches_file noRe false ([] ++ [c1patchB]) c1content).content ∧
      (apply_patches_file noRe false ([] ++ c1patchConf :: [c1patchB]) c1content).modified =
        (apply_patches_file noRe false ([] ++ [c1patchB]) c1content).modified ∧
      (apply_patches_file noRe false ([] ++ c1patchConf :: [c1patchB]) c1content).allOk = false) :=
  ⟨by decide, c1_amended noRe [] [c1patchB] c1patchConf c1content (by decide)⟩

/-- Claim C6: if after one apply pass every patch of the batch is classified APPLIED on the resulting content, then a second pass skips every patch (outcome skipped-as-applied), reports no modification, and performs no write. -/
theorem c6_theorem (rf : ReFind) (ps : List PatchDef) (c : Str)
    (h : ∀ p ∈ ps, check_patch_state rf p
      (apply_patches_file rf false ps c).content = PatchState.APPLIED) :
    apply_patches_file rf false ps (apply_patches_file rf false ps c).content =
      { content := (apply_patches_file rf false ps c).content, modified := false,
        allOk := true, outcomes := ps.map (fun _ => Outcome.skippedApplied) } ∧
    fileWritten rf false ps (apply_patches_file rf false ps c).content = false := by
  have h1 := foldl_all_applied rf false ps
    { content := (apply_patches_file rf false ps c).content, modified := false,
      allOk := true, outcomes := [] } (by simpa using h)
  constructor
  · unfold apply_patches_file at h1 ⊢
    rw [h1]
    simp
  · unfold fileWritten
    unfold apply_patches_file at h1 ⊢
    rw [h1]
    simp

def c6patchA : PatchDef :=
  { patch_type := "text_replace", search := some (lc ("AAA")),
    replace := some (lc ("BBB")), verify_present := some (lc ("BBB")),
    verify_absent := some (lc ("AAA")) }

def c6patchB : PatchDef :=
  { patch_type := "function_replace", function_anchor := some (lc ("fn()")),
    new_body := some (lc ("fn()\x7bNEW\x7d")), verify_present := some (lc ("NEW")),
    verify_absent := some (lc ("OLD")) }

def c6batch : List PatchDef := [c6patchA, c6patchB]

def c6content : Str := lc ("AAA fn()\x7bOLD\x7d")

/-- Witness for claim C6 on a concrete two-patch catalogue whose first pass drives the file to the fully APPLIED state. -/
theorem c6_witness :
    (∀ p ∈ c6batch, check_patch_state noRe p
      (apply_patches_file noRe false c6batch c6content).content = PatchState.APPLIED) ∧
    (apply_patches_file noRe false c6batch
        (apply_patches_file noRe false c6batch c6content).content =
      { content := (apply_patches_file noRe false c6batch c6content).content,
        modified := false, allOk := true,
        outcomes := c6batch.map (fun _ => Outcome.skippedApplied) } ∧
      fileWritten noRe false c6batch
        (apply_patches_file noRe false c6batch c6content).content = false) :=
  ⟨by decide, c6_theorem noRe c6batch c6content (by decide)⟩

-- ### Lemmas about occurrence counting and first-occurrence replacement

theorem countLoop_pos_iff (s : Str) (hs : s ≠ []) :
    ∀ (fuel : Nat) (c : Str), c.length ≤ fuel →
      (isSub s c = true ↔ 1 ≤ countLoop s fuel c)
  | _, [], _ => by simp [isSub, findSub, hs, countLoop]
  | 0, ch :: t, h => by simp at h
  | fuel + 1, ch :: t, h => by
    by_cases hp : isPre s (ch :: t)
    · simp [isSub, findSub, hp, countLoop, hs]
    · have ih := countLoop_pos_iff s hs fuel t (by simp at h; omega)
      simp only [isSub, findSub, hp, if_false, countLoop]
      simpa [isSub] using ih

theorem isSub_iff_count (s c : Str) : isSub s c = true ↔ 1 ≤ countOccs s c := by
  by_cases hs : s = []
  · subst hs
    cases c <;> simp [isSub, findSub, isPre, countOccs]
  · simp only [countOccs, hs, if_neg, if_false]
    exact countLoop_pos_iff s hs c.length c le_rfl

theorem replaceFirst_spec (s rep : Str) :
    ∀ (c : Str) (i : Nat), findSub s c = some i →
      replaceFirst s rep c = c.take i ++ rep ++ c.drop (i + s.length)
  | [], i, h => by
    by_cases hs : s = []
    · subst hs
      simp [findSub] at h
      subst h
      simp [replaceFirst]
    · simp [findSub, hs] at h
  | ch :: t, i, h => by
    by_cases hp : isPre s (ch :: t)
    · simp only [findSub, hp, if_true, Option.some.injEq] at h
      subst h
      simp [replaceFirst, hp]
    · simp only [findSub, hp, if_false] at h
      rcases Option.map_eq_some'.mp h with ⟨j, hj, hji⟩
      subst hji
      have ih := replaceFirst_spec s rep t j hj
      simp only [replaceFirst, hp, if_false, ih, List.take_succ_cons]
      rw [show j + 1 + s.length = (j + s.length) + 1 by omega]
      simp [List.drop_succ_cons]

theorem head?_and_len_le_one {α : Type} (l : List α) (x : α)
    (h1 : l.head? = some x) (h2 : l.length ≤ 1) : l = [x] := by
  cases l with
  | nil => cases h1
  | cons a t =>
    cases t with
    | nil => simpa using h1
    | cons b u => simp at h2

theorem findSub_none_of_not_isSub (s c : Str) (h : isSub s c = false) :
    findSub s c = none := by
  unfold isSub at h
  exact Option.not_isSome_iff_eq_none.mp (by simp [h])

theorem isSub_of_findSub_some (s c : Str) (i : Nat) (h : findSub s c = some i) :
    isSub s c = true := by
  simp [isSub, h]

/-- Claim C3, corrected: for the text_replace, unique-regex, and function-anchor locate strategies, a successful non-dry apply_single_patch forces the target to occur exactly once, and a count different from one forces failure; the statement_replace literal fallback is excluded, as the counterexample shows it is best-effort. -/
theorem c3_theorem (rf : ReFind) (p : PatchDef) (c out : Str) :
    (p.patch_type = "text_replace" → ∀ s, p.search = some s →
      (apply_single_patch rf p c false = some out → countOccs s c = 1) ∧
      (countOccs s c ≠ 1 → apply_single_patch rf p c false = none)) ∧
    (p.patch_type = "statement_replace" → ∀ r, p.search_regex = some r → r ≠ [] →
      (apply_single_patch rf p c false = some out → (rf r c).length = 1) ∧
      ((rf r c).length ≠ 1 → apply_single_patch rf p c false = none)) ∧
    (p.patch_type = "function_replace" → ∀ a, p.function_anchor = some a →
      (apply_single_patch rf p c false = some out → countOccs a c = 1) ∧
      (countOccs a c ≠ 1 → apply_single_patch rf p c false = none)) := by
  refine ⟨?_, ?_, ?_⟩
  · intro ht s hs
    constructor
    · intro happ
      by_cases h1 : isSub s c = true
      · by_cases h2 : countOccs s c > 1
        · simp [apply_single_patch, ht, hs, h1, h2] at happ
        · have := (isSub_iff_count s c).mp h1
          omega
      · simp [apply_single_patch, ht, hs, Bool.eq_false_iff.mpr h1] at happ
    · intro hcnt
      by_cases h1 : isSub s c = true
      · have hge := (isSub_iff_count s c).mp h1
        have h2 : countOccs s c > 1 := by omega
        simp [apply_single_patch, ht, hs, h1, h2]
      · simp [apply_single_patch, ht, hs, Bool.eq_false_iff.mpr h1]
  · intro ht r hr hne
    have hre : r.isEmpty = false := by
      simpa [List.isEmpty_iff] using hne
    constructor
    · intro happ
      cases hsp : rf r c with
      | nil => simp [apply_single_patch, ht, hr, hre, hsp] at happ
      | cons sp tl =>
        cases tl with
        | nil => simp
        | cons sp2 tl2 =>
          simp [apply_single_patch, ht, hr, hre, hsp] at happ
    · intro hcnt
      cases hsp : rf r c with
      | nil => simp [apply_single_patch, ht, hr, hre, hsp]
      | cons sp tl =>
        cases tl with
        | nil => simp [hsp] at hcnt
        | cons sp2 tl2 =>
          simp [apply_single_patch, ht, hr, hre, hsp]
  · intro ht a ha
    constructor
    · intro happ
      cases hf : findSub a c with
      | none =>
        simp [apply_single_patch, apply_function_replace, ht, ha, hf] at happ
      | some idx =>
        by_cases h2 : countOccs a c > 1
        · simp [apply_single_patch, apply_function_replace, ht, ha, hf, h2] at happ
        · have h1 := (isSub_iff_count a c).mp (isSub_of_findSub_some a c idx hf)
          omega
    · intro hcnt
      by_cases h2 : countOccs a c > 1
      · cases hf : findSub a c with
        | none => simp [apply_single_patch, apply_function_replace, ht, ha, hf]
        | some idx => simp [apply_single_patch, apply_function_replace, ht, ha, hf, h2]
      · have hz : countOccs a c = 0 := by omega
        have h1 : isSub a c = false := by
          by_contra hcon
          have := (isSub_iff_count a c).mp (by simpa using Bool.of_not_eq_false hcon)
          omega
        have hf := findSub_none_of_not_isSub a c h1
        simp [apply_single_patch, apply_function_replace, ht, ha, hf]

def c3patch : PatchDef :=
  { patch_type := "statement_replace", search := some (lc ("ab")),
    replace := some (lc ("X")) }

/-- Counterexample for claim C3 as worded: the statement_replace literal fallback (a search string with no regex) replaces the first of two occurrences instead of failing on the ambiguous target. -/
theorem c3_counterexample :
    countOccs (lc ("ab")) (lc ("abab")) = 2 ∧
    apply_single_patch noRe c3patch (lc ("abab")) false = some (lc ("Xab")) := by
  decide

def c3wpatch : PatchDef :=
  { patch_type := "text_replace", search := some (lc ("ab")),
    replace := some (lc ("X")) }

/-- Witness for claim C3 at a concrete text-replace patch with a unique occurrence. -/
theorem c3_witness :
    apply_single_patch noRe c3wpatch (lc ("zabz")) false = some (lc ("zXz")) ∧
    countOccs (lc ("ab")) (lc ("zabz")) = 1 :=
  ⟨by decide,
    ((c3_theorem noRe c3wpatch (lc ("zabz")) (lc ("zXz"))).1 rfl (lc ("ab")) rfl).1
      (by decide)⟩

/-- Claim C10, corrected: exact output of a successful non-dry apply_single_patch for each patch type: the returned content is the take-prefix, the replacement payload, and the drop-suffix around the located span; for function_replace the prefix is cut at funcStartOf, the ten-character look-behind window of the source, which is wider than an immediately preceding async modifier. -/
theorem c10_theorem (rf : ReFind) (p : PatchDef) (c out : Str) :
    (p.patch_type = "text_replace" → ∀ s rep, p.search = some s → p.replace = some rep →
      apply_single_patch rf p c false = some out →
      ∃ i, findSub s c = some i ∧ countOccs s c = 1 ∧
        out = c.take i ++ rep ++ c.drop (i + s.length)) ∧
    (p.patch_type = "statement_replace" → ∀ r rt, p.search_regex = some r → r ≠ [] →
      p.replace_template = some rt →
      apply_single_patch rf p c false = some out →
      ∃ sp, rf r c = [sp] ∧ out = c.take sp.1 ++ rt ++ c.drop sp.2) ∧
    (p.patch_type = "statement_replace" → ∀ s rep, p.search_regex = none →
      p.search = some s → p.replace = some rep →
      apply_single_patch rf p c false = some out →
      ∃ i, findSub s c = some i ∧ out = c.take i ++ rep ++ c.drop (i + s.length)) ∧
    (p.patch_type = "function_replace" → ∀ a nb, p.function_anchor = some a →
      p.new_body = some nb →
      apply_single_patch rf p c false = some out →
      ∃ idx bs endB, findSub a c = some idx ∧ countOccs a c = 1 ∧
        findFrom [lbrace] (idx + a.length) c = some bs ∧
        scanLoop (c.drop bs) bs 0 = (endB, 0) ∧
        out = c.take (funcStartOf c idx) ++ nb ++ c.drop (endB + 1)) := by
  refine ⟨?_, ?_, ?_, ?_⟩
  · intro ht s rep hs hrep happ
    by_cases h1 : isSub s c = true
    · by_cases h2 : countOccs s c > 1
      · simp [apply_single_patch, ht, hs, h1, h2] at happ
      · have hcnt : countOccs s c = 1 := by
          have := (isSub_iff_count s c).mp h1
          omega
        rcases Option.isSome_iff_exists.mp (by simpa [isSub] using h1) with ⟨i, hi⟩
        refine ⟨i, hi, hcnt, ?_⟩
        have hout : out = replaceFirst s rep c := by
          simp [apply_single_patch, ht, hs, hrep, h1, h2] at happ
          exact happ.symm
        rw [hout, replaceFirst_spec s rep c i hi]
    · simp [apply_single_patch, ht, hs, Bool.eq_false_iff.mpr h1] at happ
  · intro ht r rt hr hne hrt happ
    have hre : r.isEmpty = false := by
      simpa [List.isEmpty_iff] using hne
    cases hsp : rf r c with
    | nil => simp [apply_single_patch, ht, hr, hre, hsp] at happ
    | cons sp tl =>
      cases tl with
      | nil =>
        refine ⟨sp, rfl, ?_⟩
        simp [apply_single_patch, ht, hr, hre, hsp, hrt] at happ
        rw [List.append_assoc]
        exact happ.symm
      | cons sp2 tl2 => simp [apply_single_patch, ht, hr, hre, hsp] at happ
  · intro ht s rep hr hs hrep happ
    by_cases h1 : isSub s c = true
    · rcases Option.isSome_iff_exists.mp (by simpa [isSub] using h1) with ⟨i, hi⟩
      refine ⟨i, hi, ?_⟩
      have hout : out = replaceFirst s rep c := by
        simp [apply_single_patch, statementLit, ht, hr, hs, hrep, h1] at happ
        exact happ.symm
      rw [hout, replaceFirst_spec s rep c i hi]
    · simp [apply_single_patch, statementLit, ht, hr, hs, Bool.eq_false_iff.mpr h1] at happ
  · intro ht a nb ha hnb happ
    cases hf : findSub a c with
    | none => simp [apply_single_patch, apply_function_replace, ht, ha, hf] at happ
    | some idx =>
      by_cases h2 : countOccs a c > 1
      · simp [apply_single_patch, apply_function_replace, ht, ha, hf, h2] at happ
      · have hcnt : countOccs a c = 1 := by
          have := (isSub_iff_count a c).mp (isSub_of_findSub_some a c idx hf)
          omega
        cases hb : findFrom [lbrace] (idx + a.length) c with
        | none =>
          simp [apply_single_patch, apply_function_replace, ht, ha, hf, h2, hb] at happ
        | some bs =>
          by_cases hd : (scanLoop (c.drop bs) bs 0).2 ≠ 0
          · simp [apply_single_patch, apply_function_replace, ht, ha, hf, h2, hb, hd] at happ
          · have hd0 : (scanLoop (c.drop bs) bs 0).2 = 0 := by
              by_contra hcon
              exact hd hcon
            refine ⟨idx, bs, (scanLoop (c.drop bs) bs 0).1, rfl, hcnt, hb, ?_, ?_⟩
            · have heta : scanLoop (c.drop bs) bs 0 =
                  ((scanLoop (c.drop bs) bs 0).1, (scanLoop (c.drop bs) bs 0).2) := rfl
              rw [hd0] at heta
              exact heta
            · simp [apply_single_patch, apply_function_replace, ht, ha, hf, h2, hb, hd0, hnb] at happ
              rw [List.append_assoc]
              exact happ.symm

def c10patch : PatchDef :=
  { patch_type := "function_replace", function_anchor := some (lc ("f()")),
    new_body := some (lc ("NB")) }

def c10content : Str := lc ("async x f()\x7bo\x7d end")

/-- Counterexample for claim C10 as worded: the function_replace widening swallows the bytes before the anchor even when they are not an immediately preceding async modifier, so content outside the span plus modifier is lost. -/
theorem c10_counterexample :
    apply_single_patch noRe c10patch c10content false = some (lc ("NB end")) ∧
    pySlice 2 8 c10content ≠ lc ("async ") ∧
    lc ("NB end") ≠ c10content.take 8 ++ lc ("NB") ++ c10content.drop 14 ∧
    lc ("NB end") ≠ c10content.take 2 ++ lc ("NB") ++ c10content.drop 14 := by
  decide

def c10wpatch : PatchDef :=
  { patch_type := "function_replace", function_anchor := some (lc ("g()")),
    new_body := some (lc ("NB2")) }

def c10wcontent : Str := lc ("x async g()\x7bo\x7d y")

/-- Witness for claim C10 at a concrete function_replace patch with a genuine immediately preceding async modifier. -/
theorem c10_witness :
    apply_single_patch noRe c10wpatch c10wcontent false = some (lc ("x NB2 y")) ∧
    (∃ idx bs endB, findSub (lc ("g()")) c10wcontent = some idx ∧
      countOccs (lc ("g()")) c10wcontent = 1 ∧
      findFrom [lbrace] (idx + (lc ("g()")).length) c10wcontent = some bs ∧
      scanLoop (c10wcontent.drop bs) bs 0 = (endB, 0) ∧
      lc ("x NB2 y") = c10wcontent.take (funcStartOf c10wcontent idx) ++ lc ("NB2") ++
        c10wcontent.drop (endB + 1)) :=
  ⟨by decide,
    (c10_theorem noRe c10wpatch c10wcontent (lc ("x NB2 y"))).2.2.2 rfl
      (lc ("g()")) (lc ("NB2")) rfl rfl (by decide)⟩

-- ### Symbol-resolution parsers (autopatch.py, resolve_provider_config and
-- ### resolve_model_store): export/import lists and alias composition

/-- Python regex class `\w` over the ASCII artifact text. -/
def isWordChar (c : Char) : Bool := c.isAlphanum || c = '_'

/-- Python regex class `\s` over the ASCII artifact text. -/
def isSpaceChar (c : Char) : Bool :=
  c = ' ' || c = '\t' || c = '\n' || c = '\x0b' || c = '\x0c' || c = '\r'

/-- Python `str.strip()`. -/
def pstrip (l : Str) : Str :=
  ((l.dropWhile isSpaceChar).reverse.dropWhile isSpaceChar).reverse

/-- Python `str.split(",")`. -/
def splitComma : Str → List Str
  | [] => [[]]
  | c :: t =>
    match splitComma t with
    | [] => [[c]]
    | s :: ss => if c = ',' then [] :: s :: ss else (c :: s) :: ss

/-- Python `re.match` of the alias-pair pattern: a word group,
whitespace, the keyword `as`, whitespace, and a second word group,
anchored at the start with arbitrary trailing text. -/
def parseAsPair (s : Str) : Option (Str × Str) :=
  let w1 := s.takeWhile isWordChar
  let r1 := s.dropWhile isWordChar
  if w1 = [] then none
  else if r1.takeWhile isSpaceChar = [] then none
  else
    let r2 := r1.dropWhile isSpaceChar
    if isPre ['a', 's'] r2 then
      let r3 := r2.drop 2
      if r3.takeWhile isSpaceChar = [] then none
      else
        let r4 := r3.dropWhile isSpaceChar
        if r4.takeWhile isWordChar = [] then none
        else some (w1, r4.takeWhile isWordChar)
    else none

/-- Insertion-order-preserving dictionary update (Python dict assignment). -/
def dUpsert (k v : Str) (d : List (Str × Str)) : List (Str × Str) :=
  if d.any (fun kv => kv.1 == k) then
    d.map (fun kv => if kv.1 == k then (k, v) else kv)
  else d ++ [(k, v)]

/-- Dictionary lookup (Python `dict[k]` / `k in dict`). -/
def dLookup (k : Str) (d : List (Str × Str)) : Option Str :=
  (d.find? (fun kv => kv.1 == k)).map (fun kv => kv.2)

/-- Export-pair parsing loop of `resolve_provider_config` (lines
384-389): only `identifier as alias` entries are recorded, keyed by the
alias. -/
def parse_export_pairs (exports_str : Str) : List (Str × Str) :=
  (splitComma exports_str).foldl
    (fun d pair =>
      match parseAsPair (pstrip pair) with
      | some lv => dUpsert lv.2 lv.1 d
      | none => d)
    []

/-- Import-pair parsing loop of `resolve_model_store` (lines 553-560):
`alias as localAlias` entries are keyed by the export alias, and a bare
nonempty entry maps to itself. -/
def parse_import_pairs (import_str : Str) : List (Str × Str) :=
  (splitComma import_str).foldl
    (fun d pair =>
      match parseAsPair (pstrip pair) with
      | some gg => dUpsert gg.1 gg.2 d
      | none => if pstrip pair ≠ [] then dUpsert (pstrip pair) (pstrip pair) d else d)
    []

/-- Match of the export-block regex anchored at the current position:
the literal `export`, an opening brace, at least one non-closing-brace
character, and a closing brace; returns the block body. -/
def exportBlockAt (l : Str) : Option Str :=
  if isPre (lc ("export") ++ [lbrace]) l then
    let rest := l.drop 7
    let body := rest.takeWhile (fun c => c != rbrace)
    if body ≠ [] ∧ isPre [rbrace] (rest.drop body.length) then some body else none
  else none

/-- Leftmost match of the export-block regex (`re.search`). -/
def findExportBlock : Str → Option Str
  | [] => none
  | c :: t =>
    match exportBlockAt (c :: t) with
    | some b => some b
    | none => findExportBlock t

/-- Export-table parser of `resolve_provider_config`: find the export
block and parse its comma-separated entries (alias to local id). -/
def resolveExportTable (content : Str) : Option (List (Str × Str)) :=
  (findExportBlock content).map parse_export_pairs

/-- Resolved-table composition loop of `resolve_model_store` (lines
565-568): for each semantic name bound to an export alias, look the
alias up in the import table. -/
def resolveStep (importMap : List (Str × Str)) (resolved : List (Str × Str))
    (kv : Str × Str) : List (Str × Str) :=
  match dLookup kv.2 importMap with
  | some localAlias => dUpsert kv.1 localAlias resolved
  | none => resolved

/-- Composition fold over the semantic export table. -/
def buildResolved (providerExports importMap : List (Str × Str)) : List (Str × Str) :=
  providerExports.foldl (resolveStep importMap) []

/-- Counterexample for claim C4 as worded: an export block consisting of the single bare identifier foo is found, yet it parses to the empty table; the bare entry is dropped, not mapped under its own name. -/
theorem c4_counterexample :
    findExportBlock (lc ("export\x7bfoo\x7d")) = some (lc ("foo")) ∧
    resolveExportTable (lc ("export\x7bfoo\x7d")) = some [] := by
  decide

-- ### Helper lemmas for the alias-list parsers

theorem twAll {p : Char → Bool} : ∀ (xs : Str), (∀ c ∈ xs, p c = true) →
    xs.takeWhile p = xs
  | [], _ => rfl
  | x :: xs, h => by
    rw [List.takeWhile_cons, if_pos (h x (by simp))]
    rw [twAll xs (fun c hc => h c (by simp [hc]))]

theorem dwAll {p : Char → Bool} : ∀ (xs : Str), (∀ c ∈ xs, p c = true) →
    xs.dropWhile p = []
  | [], _ => rfl
  | x :: xs, h => by
    rw [List.dropWhile_cons_of_pos (h x (by simp))]
    exact dwAll xs (fun c hc => h c (by simp [hc]))

theorem twAppend {p : Char → Bool} (xs : Str) (h : ∀ c ∈ xs, p c = true)
    (y : Char) (ys : Str) (hy : p y = false) :
    (xs ++ y :: ys).takeWhile p = xs ∧ (xs ++ y :: ys).dropWhile p = y :: ys := by
  induction xs with
  | nil =>
    constructor
    · simp [List.takeWhile_cons, hy]
    · simp [List.dropWhile_cons, hy]
  | cons x xs ih =>
    have ihh := ih (fun c hc => h c (by simp [hc]))
    constructor
    · rw [List.cons_append, List.takeWhile_cons, if_pos (h x (by simp)), ihh.1]
    · rw [List.cons_append, List.dropWhile_cons_of_pos (h x (by simp)), ihh.2]

theorem word_not_space (c : Char) (h : isWordChar c = true) : isSpaceChar c = false := by
  by_contra hc
  have hs : isSpaceChar c = true := by
    cases hb : isSpaceChar c
    · exact absurd hb hc
    · rfl
  unfold isSpaceChar at hs
  simp only [Bool.or_eq_true, decide_eq_true_eq] at hs
  rcases hs with ((((rfl | rfl) | rfl) | rfl) | rfl) | rfl <;> exact absurd h (by decide)

theorem word_ne_comma (c : Char) (h : isWordChar c = true) : c ≠ ',' := by
  rintro rfl
  exact absurd h (by decide)

theorem word_ne_rbrace (c : Char) (h : isWordChar c = true) : c ≠ rbrace := by
  rintro rfl
  exact absurd h (by decide)

theorem splitComma_ne_nil : ∀ l : Str, splitComma l ≠ []
  | [] => by simp [splitComma]
  | c :: t => by
    simp only [splitComma]
    cases h : splitComma t with
    | nil => simp
    | cons s ss => by_cases hc : c = ',' <;> simp [hc]

theorem splitComma_no_comma : ∀ l : Str, (∀ c ∈ l, c ≠ ',') → splitComma l = [l]
  | [], _ => rfl
  | c :: t, h => by
    have ih := splitComma_no_comma t (fun x hx => h x (by simp [hx]))
    simp only [splitComma, ih]
    rw [if_neg (h c (by simp))]

theorem splitComma_append (xs ys : Str) (h : ∀ c ∈ xs, c ≠ ',') :
    splitComma (xs ++ ',' :: ys) = xs :: splitComma ys := by
  induction xs with
  | nil =>
    simp only [List.nil_append, splitComma]
    cases hsy : splitComma ys with
    | nil => exact absurd hsy (splitComma_ne_nil ys)
    | cons s ss => simp
  | cons x xs ih =>
    have ihh := ih (fun c hc => h c (by simp [hc]))
    simp only [List.cons_append, splitComma, List.append_eq, ihh]
    rw [if_neg (h x (by simp))]

theorem pstrip_eq_self (a b : Char) (mid : Str)
    (ha : isSpaceChar a = false) (hb : isSpaceChar b = false) :
    pstrip (a :: (mid ++ [b])) = a :: (mid ++ [b]) := by
  unfold pstrip
  rw [List.dropWhile_cons_of_neg (by simp [ha])]
  have h2 : (a :: (mid ++ [b])).reverse = b :: (mid.reverse ++ [a]) := by simp
  rw [h2, List.dropWhile_cons_of_neg (by simp [hb])]
  simp

theorem pstrip_word (l : Str) (h : ∀ c ∈ l, isWordChar c = true) : pstrip l = l := by
  have hns : ∀ c ∈ l, isSpaceChar c = false := fun c hc => word_not_space c (h c hc)
  unfold pstrip
  have d1 : l.dropWhile isSpaceChar = l := by
    cases l with
    | nil => rfl
    | cons a t => exact List.dropWhile_cons_of_neg (by simp [hns a (by simp)])
  rw [d1]
  have d2 : l.reverse.dropWhile isSpaceChar = l.reverse := by
    cases hr : l.reverse with
    | nil => rfl
    | cons a t =>
      have ham : a ∈ l := by
        have : a ∈ l.reverse := by simp [hr]
        simpa using this
      exact List.dropWhile_cons_of_neg (by simp [hns a ham])
  rw [d2, List.reverse_reverse]

theorem parseAsPair_as (loc al : Str) (hl : loc ≠ [])
    (hla : ∀ c ∈ loc, isWordChar c = true)
    (ha : al ≠ []) (haa : ∀ c ∈ al, isWordChar c = true) :
    parseAsPair (loc ++ ' ' :: 'a' :: 's' :: ' ' :: al) = some (loc, al) := by
  obtain ⟨a0, al', rfl⟩ := List.exists_cons_of_ne_nil ha
  have htw := twAppend loc hla ' ' ('a' :: 's' :: ' ' :: a0 :: al') (by decide)
  unfold parseAsPair
  rw [htw.1, htw.2, if_neg hl]
  have hsp1 : List.takeWhile isSpaceChar (' ' :: 'a' :: 's' :: ' ' :: a0 :: al') = [' '] := by
    rw [List.takeWhile_cons_of_pos (by decide), List.takeWhile_cons_of_neg (by decide)]
  have hsp2 : List.dropWhile isSpaceChar (' ' :: 'a' :: 's' :: ' ' :: a0 :: al') =
      'a' :: 's' :: ' ' :: a0 :: al' := by
    rw [List.dropWhile_cons_of_pos (by decide), List.dropWhile_cons_of_neg (by decide)]
  rw [hsp1, hsp2, if_neg (by simp)]
  have ha0 : isSpaceChar a0 = false := word_not_space a0 (haa a0 (by simp))
  rw [if_pos (by simp [isPre])]
  have hdrop2 : List.drop 2 ('a' :: 's' :: ' ' :: a0 :: al') = ' ' :: a0 :: al' := rfl
  rw [hdrop2]
  dsimp only
  have hsp3 : List.takeWhile isSpaceChar (' ' :: a0 :: al') = [' '] := by
    rw [List.takeWhile_cons_of_pos (by decide), List.takeWhile_cons_of_neg (by simp [ha0])]
  have hsp4 : List.dropWhile isSpaceChar (' ' :: a0 :: al') = a0 :: al' := by
    rw [List.dropWhile_cons_of_pos (by decide), List.dropWhile_cons_of_neg (by simp [ha0])]
  rw [hsp3, hsp4, if_neg (by simp)]
  rw [twAll (a0 :: al') haa]
  rw [if_neg (by simp)]

theorem parseAsPair_word_none (l : Str) (h : ∀ c ∈ l, isWordChar c = true) :
    parseAsPair l = none := by
  cases hl : l with
  | nil => rfl
  | cons c t =>
    unfold parseAsPair
    rw [hl] at h
    rw [twAll (c :: t) h, dwAll (c :: t) h]
    simp

theorem dLookup_single_ne (k al loc : Str) (h : k ≠ al) :
    dLookup k [(al, loc)] = none := by
  unfold dLookup
  rw [List.find?_cons_of_neg]
  · rfl
  · simp
    exact fun hc => absurd hc.symm h

/-- Claim C4, corrected: the export-table parser of resolve_provider_config keeps only identifier-as-alias entries; a block with an alias entry followed by a bare identifier parses to exactly the alias pair, so the alias form is covered but the bare identifier is absent from the table. -/
theorem c4_theorem (loc al bare : Str) (hl : loc ≠ [])
    (hla : ∀ c ∈ loc, isWordChar c = true)
    (ha : al ≠ []) (haa : ∀ c ∈ al, isWordChar c = true)
    (hb : bare ≠ []) (hba : ∀ c ∈ bare, isWordChar c = true)
    (hne : bare ≠ al) :
    parse_export_pairs (loc ++ ' ' :: 'a' :: 's' :: ' ' :: al ++ ',' :: bare) = [(al, loc)] ∧
    dLookup al [(al, loc)] = some loc ∧
    dLookup bare [(al, loc)] = none := by
  obtain ⟨l0, loc', rfl⟩ := List.exists_cons_of_ne_nil hl
  obtain ⟨al2, aN, hal⟩ := (List.eq_nil_or_concat al).resolve_left ha
  rw [List.concat_eq_append] at hal
  subst hal
  set comp1 : Str := (l0 :: loc') ++ ' ' :: 'a' :: 's' :: ' ' :: (al2 ++ [aN]) with hcomp1
  have hcomma : ∀ c ∈ comp1, c ≠ ',' := by
    intro c hc
    rw [hcomp1] at hc
    rcases List.mem_append.mp hc with h1 | h1
    · exact word_ne_comma c (hla c h1)
    · simp only [List.mem_cons] at h1
      rcases h1 with rfl | rfl | rfl | rfl | h1
      · decide
      · decide
      · decide
      · decide
      · exact word_ne_comma c (haa c h1)
  refine ⟨?_, ?_, dLookup_single_ne bare (al2 ++ [aN]) (l0 :: loc') hne⟩
  · unfold parse_export_pairs
    have hshape : (l0 :: loc') ++ ' ' :: 'a' :: 's' :: ' ' :: (al2 ++ [aN]) ++ ',' :: bare =
        comp1 ++ ',' :: bare := by
      rw [hcomp1]
    rw [hshape, splitComma_append comp1 bare hcomma,
      splitComma_no_comma bare (fun c hc => word_ne_comma c (hba c hc))]
    simp only [List.foldl]
    have hps : pstrip comp1 = comp1 := by
      have hx := pstrip_eq_self l0 aN (loc' ++ ' ' :: 'a' :: 's' :: ' ' :: al2)
        (word_not_space l0 (hla l0 (by simp)))
        (word_not_space aN (haa aN (by simp)))
      rw [hcomp1]
      rw [show (l0 :: loc') ++ ' ' :: 'a' :: 's' :: ' ' :: (al2 ++ [aN]) =
          l0 :: ((loc' ++ ' ' :: 'a' :: 's' :: ' ' :: al2) ++ [aN]) by simp]
      exact hx
    have hpair : parseAsPair (pstrip comp1) = some (l0 :: loc', al2 ++ [aN]) := by
      rw [hps, hcomp1]
      exact parseAsPair_as (l0 :: loc') (al2 ++ [aN]) hl hla (by simp) haa
    rw [hpair]
    have hpsb : pstrip bare = bare := pstrip_word bare hba
    have hbarenone : parseAsPair (pstrip bare) = none := by
      rw [hpsb]
      exact parseAsPair_word_none bare hba
    rw [hbarenone]
    simp [dUpsert]
  · unfold dLookup
    simp

/-- Witness for claim C4 at concrete identifiers. -/
theorem c4_witness :
    parse_export_pairs
        (lc ("ce") ++ ' ' :: 'a' :: 's' :: ' ' :: lc ("Ce") ++ ',' :: lc ("foo")) =
      [(lc ("Ce"), lc ("ce"))] ∧
    dLookup (lc ("Ce")) [(lc ("Ce"), lc ("ce"))] = some (lc ("ce")) ∧
    dLookup (lc ("foo")) [(lc ("Ce"), lc ("ce"))] = none :=
  c4_theorem (lc ("ce")) (lc ("Ce")) (lc ("foo")) (by decide) (by decide) (by decide)
    (by decide) (by decide) (by decide) (by decide)

-- ### File discovery (autopatch.py, _discover_provider_config and
-- ### _discover_model_store)

/-- Candidate source file: basename and content. -/
structure JSFile where
  filename : Str
  content : Str
deriving DecidableEq, Repr

/-- Discovery failure: no fingerprint match, an ambiguous match (with
the candidate names), or a missing upstream dependency filename. -/
inductive DiscoveryError where
  | noMatch
  | ambiguous (names : List Str)
  | missingDependency
deriving DecidableEq, Repr

/-- Structural fingerprint of the provider-config chunk
(`_discover_provider_config`, lines 257-268). -/
def providerConfigFp (content : Str) : Bool :=
  isSub (lc (".activeProviderId")) content &&
  (isSub (lc (".split(\":\")")) content || isSub (lc (".split(':')")) content) &&
  (isSub (lc ("isDefault:!0")) content || isSub (lc ("isDefault:!1")) content) &&
  (isSub (lc ("fast:")) content && isSub (lc ("balanced:")) content &&
    isSub (lc ("smart:")) content) &&
  isSub (lc ("\"workspaces-active-provider\"")) content

/-- Discovery of the provider-config chunk: demand exactly one
fingerprint match among the candidates. -/
def discover_provider_config (files : List JSFile) : Except DiscoveryError JSFile :=
  match files.filter (fun f => providerConfigFp f.content) with
  | [] => Except.error DiscoveryError.noMatch
  | [f] => Except.ok f
  | f1 :: f2 :: rest =>
    Except.error (DiscoveryError.ambiguous ((f1 :: f2 :: rest).map (fun f => f.filename)))

/-- Structural fingerprint of the ModelStore chunk, parameterized by the
resolved provider-config filename (`_discover_model_store`, lines 292-302). -/
def modelStoreFp (pcName : Str) (content : Str) : Bool :=
  (isSub (lc ("loadModels")) content && isSub (lc ("selectModel")) content &&
   isSub (lc ("getGroupedModels")) content &&
   isSub (lc ("reloadModelsForProvider")) content &&
   isSub (lc ("fetchModelsForProvider")) content &&
   isSub (lc ("availableModels")) content && isSub (lc ("modelsLoaded")) content) &&
  isSub (lc ("\"workspaces-selected-model\"")) content &&
  isSub (lc ("from\"./") ++ pcName ++ [dq]) content

/-- Discovery of the ModelStore chunk: requires the provider-config
filename and demands exactly one fingerprint match. -/
def discover_model_store (files : List JSFile) (pcName : Str) :
    Except DiscoveryError JSFile :=
  if pcName = [] then Except.error DiscoveryError.missingDependency
  else
    match files.filter (fun f => modelStoreFp pcName f.content) with
    | [] => Except.error DiscoveryError.noMatch
    | [f] => Except.ok f
    | f1 :: f2 :: rest =>
      Except.error (DiscoveryError.ambiguous ((f1 :: f2 :: rest).map (fun f => f.filename)))

/-- Claim C8: each discovery role resolves a file exactly when precisely one candidate matches its fingerprint; zero matches yield the no-match error, and two or more yield the ambiguous error listing every matching candidate, for both the provider-config and the model-store role. -/
theorem c8_theorem (files : List JSFile) (pcName : Str) (hpc : pcName ≠ []) :
    (∀ f, discover_provider_config files = Except.ok f ↔
      files.filter (fun g => providerConfigFp g.content) = [f]) ∧
    (files.filter (fun g => providerConfigFp g.content) = [] →
      discover_provider_config files = Except.error DiscoveryError.noMatch) ∧
    (∀ f1 f2 rest, files.filter (fun g => providerConfigFp g.content) = f1 :: f2 :: rest →
      discover_provider_config files =
        Except.error (DiscoveryError.ambiguous ((f1 :: f2 :: rest).map (fun g => g.filename)))) ∧
    (∀ f, discover_model_store files pcName = Except.ok f ↔
      files.filter (fun g => modelStoreFp pcName g.content) = [f]) ∧
    (files.filter (fun g => modelStoreFp pcName g.content) = [] →
      discover_model_store files pcName = Except.error DiscoveryError.noMatch) ∧
    (∀ f1 f2 rest, files.filter (fun g => modelStoreFp pcName g.content) = f1 :: f2 :: rest →
      discover_model_store files pcName =
        Except.error (DiscoveryError.ambiguous ((f1 :: f2 :: rest).map (fun g => g.filename)))) := by
  refine ⟨?_, ?_, ?_, ?_, ?_, ?_⟩
  · intro f
    unfold discover_provider_config
    cases hfl : files.filter (fun g => providerConfigFp g.content) with
    | nil => simp
    | cons a t =>
      cases t with
      | nil => simp
      | cons b u => simp
  · intro hfl
    unfold discover_provider_config
    rw [hfl]
  · intro f1 f2 rest hfl
    unfold discover_provider_config
    rw [hfl]
  · intro f
    unfold discover_model_store
    rw [if_neg hpc]
    cases hfl : files.filter (fun g => modelStoreFp pcName g.content) with
    | nil => simp
    | cons a t =>
      cases t with
      | nil => simp
      | cons b u => simp
  · intro hfl
    unfold discover_model_store
    rw [if_neg hpc, hfl]
  · intro f1 f2 rest hfl
    unfold discover_model_store
    rw [if_neg hpc, hfl]

def c8pcFile : JSFile :=
  { filename := lc ("aaa.js"),
    content := lc (".activeProviderId .split(\":\") isDefault:!0 fast: balanced: smart: \"workspaces-active-provider\"") }

def c8msFile : JSFile :=
  { filename := lc ("bbb.js"),
    content := lc ("loadModels selectModel getGroupedModels reloadModelsForProvider fetchModelsForProvider availableModels modelsLoaded \"workspaces-selected-model\" from\"./aaa.js\"") }

def c8decoy : JSFile := { filename := lc ("ccc.js"), content := lc ("nothing here") }

/-- Witness for claim C8 on a concrete three-file directory with exactly one match per role and a decoy. -/
theorem c8_witness :
    (lc ("aaa.js") : Str) ≠ [] ∧
    discover_provider_config [c8pcFile, c8msFile, c8decoy] = Except.ok c8pcFile ∧
    discover_model_store [c8pcFile, c8msFile, c8decoy] (lc ("aaa.js")) =
      Except.ok c8msFile :=
  ⟨by decide,
    ((c8_theorem [c8pcFile, c8msFile, c8decoy] (lc ("aaa.js")) (by decide)).1 c8pcFile).mpr
      (by decide),
    ((c8_theorem [c8pcFile, c8msFile, c8decoy] (lc ("aaa.js")) (by decide)).2.2.2.1
        c8msFile).mpr
      (by decide)⟩

-- ### Dictionary lemmas for the resolved-table composition

theorem lookup_map_update (k v : Str) : ∀ d : List (Str × Str),
    d.any (fun kv => kv.1 == k) = true →
    dLookup k (d.map (fun kv => if kv.1 == k then (k, v) else kv)) = some v
  | [], h => by simp at h
  | kv :: d, h => by
    by_cases hk : (kv.1 == k) = true
    · unfold dLookup
      rw [List.map_cons, if_pos hk, List.find?_cons_of_pos _ (by simp)]
      rfl
    · have hany : d.any (fun x => x.1 == k) = true := by
        simp only [List.any_cons, Bool.or_eq_true] at h
        rcases h with h | h
        · exact absurd h hk
        · exact h
      have ih := lookup_map_update k v d hany
      unfold dLookup at ih ⊢
      rw [List.map_cons, if_neg hk, List.find?_cons_of_neg _ (by simpa using hk)]
      exact ih

theorem lookup_append_new (k v : Str) : ∀ d : List (Str × Str),
    d.any (fun kv => kv.1 == k) = false →
    dLookup k (d ++ [(k, v)]) = some v
  | [], _ => by simp [dLookup, List.find?]
  | kv :: d, h => by
    simp only [List.any_cons, Bool.or_eq_false_iff] at h
    have ih := lookup_append_new k v d h.2
    unfold dLookup at ih ⊢
    rw [List.cons_append, List.find?_cons_of_neg _ (by simpa using h.1)]
    exact ih

theorem dLookup_upsert_self (k v : Str) (d : List (Str × Str)) :
    dLookup k (dUpsert k v d) = some v := by
  unfold dUpsert
  by_cases h : d.any (fun kv => kv.1 == k) = true
  · rw [if_pos h]
    exact lookup_map_update k v d h
  · rw [if_neg h]
    exact lookup_append_new k v d (Bool.eq_false_iff.mpr h)

theorem lookup_map_update_ne (k k2 v : Str) (hne : k2 ≠ k) : ∀ d : List (Str × Str),
    dLookup k2 (d.map (fun kv => if kv.1 == k then (k, v) else kv)) = dLookup k2 d
  | [] => rfl
  | kv :: d => by
    have ih := lookup_map_update_ne k k2 v hne d
    by_cases hk : (kv.1 == k) = true
    · have hkey : kv.1 = k := by simpa using hk
      unfold dLookup at ih ⊢
      rw [List.map_cons, if_pos hk]
      rw [List.find?_cons_of_neg _ (by simp; exact fun hc => hne hc.symm)]
      rw [List.find?_cons_of_neg _ (by simp [hkey]; exact fun hc => hne hc.symm)]
      exact ih
    · unfold dLookup at ih ⊢
      rw [List.map_cons, if_neg hk]
      by_cases h2 : (kv.1 == k2) = true
      · rw [List.find?_cons_of_pos _ (by simpa using h2),
          List.find?_cons_of_pos _ (by simpa using h2)]
      · rw [List.find?_cons_of_neg _ (by simpa using h2),
          List.find?_cons_of_neg _ (by simpa using h2)]
        exact ih

theorem lookup_append_ne (k2 : Str) (x : Str × Str) (hx : (x.1 == k2) = false) :
    ∀ d : List (Str × Str), dLookup k2 (d ++ [x]) = dLookup k2 d
  | [] => by
    unfold dLookup
    rw [List.nil_append, List.find?_cons_of_neg _ (by simp [hx])]
  | kv :: d => by
    have ih := lookup_append_ne k2 x hx d
    unfold dLookup at ih ⊢
    by_cases h2 : (kv.1 == k2) = true
    · rw [List.cons_append, List.find?_cons_of_pos _ (by simpa using h2),
        List.find?_cons_of_pos _ (by simpa using h2)]
    · rw [List.cons_append, List.find?_cons_of_neg _ (by simpa using h2),
        List.find?_cons_of_neg _ (by simpa using h2)]
      exact ih

theorem dLookup_upsert_ne (k k2 v : Str) (hne : k2 ≠ k) (d : List (Str × Str)) :
    dLookup k2 (dUpsert k v d) = dLookup k2 d := by
  unfold dUpsert
  by_cases h : d.any (fun kv => kv.1 == k) = true
  · rw [if_pos h]
    exact lookup_map_update_ne k k2 v hne d
  · rw [if_neg h]
    exact lookup_append_ne k2 (k, v) (by simp; exact fun hc => hne hc.symm) d

theorem buildResolved_skip (importMap : List (Str × Str)) (sem : Str) :
    ∀ (pe : List (Str × Str)) (acc : List (Str × Str)),
      (∀ kv ∈ pe, kv.1 ≠ sem) →
      dLookup sem (pe.foldl (resolveStep importMap) acc) = dLookup sem acc
  | [], _, _ => rfl
  | kv :: pe, acc, h => by
    rw [List.foldl_cons]
    rw [buildResolved_skip importMap sem pe (resolveStep importMap acc kv)
      (fun x hx => h x (by simp [hx]))]
    unfold resolveStep
    cases hlk : dLookup kv.2 importMap with
    | none => rfl
    | some la => exact dLookup_upsert_ne kv.1 sem la (fun hc => h kv (by simp) hc.symm) acc

theorem c9_aux (importMap : List (Str × Str)) (sem a1 b1 : Str)
    (himp : dLookup a1 importMap = some b1) :
    ∀ (pe : List (Str × Str)) (acc : List (Str × Str)),
      (pe.map Prod.fst).Nodup → (sem, a1) ∈ pe →
      dLookup sem (pe.foldl (resolveStep importMap) acc) = some b1
  | [], _, _, hmem => absurd hmem (by simp)
  | kv :: pe, acc, hnd, hmem => by
    rw [List.map_cons] at hnd
    rcases List.mem_cons.mp hmem with heq | hmem2
    · obtain rfl := heq.symm
      rw [List.foldl_cons]
      have hstep : resolveStep importMap acc (sem, a1) = dUpsert sem b1 acc := by
        unfold resolveStep
        rw [himp]
      rw [hstep]
      have hkeys : ∀ x ∈ pe, x.1 ≠ sem := by
        intro x hx hc
        have : sem ∈ pe.map Prod.fst := by
          rw [← hc]
          exact List.mem_map_of_mem Prod.fst hx
        exact (List.nodup_cons.mp hnd).1 this
      rw [buildResolved_skip importMap sem pe (dUpsert sem b1 acc) hkeys]
      exact dLookup_upsert_self sem b1 acc
    · rw [List.foldl_cons]
      exact c9_aux importMap sem a1 b1 himp pe (resolveStep importMap acc kv)
        (List.nodup_cons.mp hnd).2 hmem2

/-- Claim C9: when the upstream export table binds a semantic name to alias a1 (semantic keys distinct) and the downstream import table maps a1 to b1, the composed resolved table maps the semantic name to b1, by pure composition of the two lookups. -/
theorem c9_theorem (providerExports importMap : List (Str × Str)) (sem a1 b1 : Str)
    (hnd : (providerExports.map Prod.fst).Nodup)
    (hsem : (sem, a1) ∈ providerExports)
    (himp : dLookup a1 importMap = some b1) :
    dLookup sem (buildResolved providerExports importMap) = some b1 :=
  c9_aux importMap sem a1 b1 himp providerExports [] hnd hsem

/-- Witness for claim C9 on a concrete two-file chain whose import table is parsed from an import list with an alias entry and a bare entry. -/
theorem c9_witness :
    dLookup (lc ("Ce")) (parse_import_pairs (lc ("Ce as q,bare"))) = some (lc ("q")) ∧
    dLookup (lc ("bare")) (parse_import_pairs (lc ("Ce as q,bare"))) =
      some (lc ("bare")) ∧
    dLookup (lc ("parseCompoundModelId"))
      (buildResolved [(lc ("parseCompoundModelId"), lc ("Ce"))]
        (parse_import_pairs (lc ("Ce as q,bare")))) = some (lc ("q")) :=
  ⟨by decide, by decide,
    c9_theorem [(lc ("parseCompoundModelId"), lc ("Ce"))]
      (parse_import_pairs (lc ("Ce as q,bare")))
      (lc ("parseCompoundModelId")) (lc ("Ce")) (lc ("q"))
      (by decide) (by decide) (by decide)⟩

-- ### Reference grammar for function bodies (used to settle the
-- ### brace-extraction property): balanced code with quoted strings,
-- ### backslash escapes, and template literals with one level of
-- ### brace interpolation

/-- Quoted-string body: plain characters and backslash escapes. -/
inductive QTree where
  | qnil
  | qch (c : Char) (rest : QTree)
  | qesc (c : Char) (rest : QTree)
deriving DecidableEq, Repr

/-- Text of a quoted-string body. -/
def qFlat : QTree → Str
  | QTree.qnil => []
  | QTree.qch c r => c :: qFlat r
  | QTree.qesc c r => bsl :: c :: qFlat r

/-- Well-formedness of a quoted-string body for quote `q`: plain
characters are neither the quote nor the escape character. -/
def qValid (q : Char) : QTree → Bool
  | QTree.qnil => true
  | QTree.qch c r => c ≠ q && c ≠ bsl && qValid q r
  | QTree.qesc _ r => qValid q r

/-- Interpolation body: brace-balanced raw text. -/
inductive ITree where
  | inil
  | ich (c : Char) (rest : ITree)
  | iblk (inner : ITree) (rest : ITree)
deriving DecidableEq, Repr

/-- Text of an interpolation body. -/
def iFlat : ITree → Str
  | ITree.inil => []
  | ITree.ich c r => c :: iFlat r
  | ITree.iblk i r => lbrace :: iFlat i ++ rbrace :: iFlat r

/-- Well-formedness of an interpolation body: plain characters are not
braces. -/
def iValid : ITree → Bool
  | ITree.inil => true
  | ITree.ich c r => c ≠ lbrace && c ≠ rbrace && iValid r
  | ITree.iblk i r => iValid i && iValid r

/-- Template-literal body: plain characters, escapes, and one level of
`${...}` interpolation. -/
inductive TTree where
  | tnil
  | tch (c : Char) (rest : TTree)
  | tesc (c : Char) (rest : TTree)
  | tinterp (inner : ITree) (rest : TTree)
deriving DecidableEq, Repr

/-- Text of a template-literal body. -/
def tFlat : TTree → Str
  | TTree.tnil => []
  | TTree.tch c r => c :: tFlat r
  | TTree.tesc c r => bsl :: c :: tFlat r
  | TTree.tinterp i r => '$' :: lbrace :: iFlat i ++ rbrace :: tFlat r

/-- Well-formedness of a template-literal body: plain characters are
not the backtick, the escape character, or the interpolation dollar. -/
def tValid : TTree → Bool
  | TTree.tnil => true
  | TTree.tch c r => c ≠ btick && c ≠ bsl && c ≠ '$' && tValid r
  | TTree.tesc _ r => tValid r
  | TTree.tinterp i r => iValid i && tValid r

/-- Function-body text: balanced braces, quoted strings, and template
literals over plain characters. -/
inductive BTree where
  | bnil
  | bch (c : Char) (rest : BTree)
  | bblk (inner : BTree) (rest : BTree)
  | bstr (q : Char) (body : QTree) (rest : BTree)
  | btmpl (body : TTree) (rest : BTree)
deriving DecidableEq, Repr

/-- Text of a function body. -/
def bFlat : BTree → Str
  | BTree.bnil => []
  | BTree.bch c r => c :: bFlat r
  | BTree.bblk i r => lbrace :: bFlat i ++ rbrace :: bFlat r
  | BTree.bstr q body r => q :: qFlat body ++ q :: bFlat r
  | BTree.btmpl body r => btick :: tFlat body ++ btick :: bFlat r

/-- Well-formedness of a function body: plain characters are not
braces, quotes, or backticks; strings use a real quote character. -/
def bValid : BTree → Bool
  | BTree.bnil => true
  | BTree.bch c r =>
    c ≠ lbrace && c ≠ rbrace && c ≠ dq && c ≠ squo && c ≠ btick && bValid r
  | BTree.bblk i r => bValid i && bValid r
  | BTree.bstr q body r => (q = dq || q = squo) && qValid q body && bValid r
  | BTree.btmpl body r => tValid body && bValid r

theorem skipStr_at_quote (q : Char) (rest : Str) :
    skipStr q (q :: rest) = (q :: rest, 0) := by
  cases rest <;> simp [skipStr]

theorem skipStr_step_esc (q c : Char) (t : Str) (hq : bsl ≠ q) :
    skipStr q (bsl :: c :: t) = ((skipStr q t).1, (skipStr q t).2 + 2) := by
  simp only [skipStr]
  rw [if_neg hq]
  simp

theorem skipStr_step_plain (q c d : Char) (t : Str) (h1 : c ≠ q) (h2 : c ≠ bsl) :
    skipStr q (c :: d :: t) = ((skipStr q (d :: t)).1, (skipStr q (d :: t)).2 + 1) := by
  simp only [skipStr]
  rw [if_neg h1, if_neg h2]

/-- The quoted-string skip consumes exactly a well-formed string body
and stops at the closing quote. -/
theorem skipStr_consume (q : Char) (hq : q ≠ bsl) :
    ∀ (b : QTree), qValid q b = true → ∀ (rest : Str),
      skipStr q (qFlat b ++ q :: rest) = (q :: rest, (qFlat b).length)
  | QTree.qnil, _, rest => by
    simpa [qFlat] using skipStr_at_quote q rest
  | QTree.qch c r, hv, rest => by
    simp only [qValid, Bool.and_eq_true, decide_eq_true_eq] at hv
    have ih := skipStr_consume q hq r hv.2 rest
    obtain ⟨d, t, hX⟩ := List.exists_cons_of_ne_nil
      (show qFlat r ++ q :: rest ≠ [] by simp)
    rw [show qFlat (QTree.qch c r) ++ q :: rest = c :: (qFlat r ++ q :: rest) by
      simp [qFlat]]
    rw [hX, skipStr_step_plain q c d t hv.1.1 hv.1.2, ← hX, ih]
    simp only [qFlat, Prod.mk.injEq, List.length_cons]
    all_goals exact ⟨trivial, by omega⟩
  | QTree.qesc c r, hv, rest => by
    simp only [qValid] at hv
    have ih := skipStr_consume q hq r hv rest
    rw [show qFlat (QTree.qesc c r) ++ q :: rest = bsl :: c :: (qFlat r ++ q :: rest) by
      simp [qFlat]]
    rw [skipStr_step_esc q c _ (fun hc => hq hc.symm), ih]
    simp only [qFlat, Prod.mk.injEq, List.length_cons]
    all_goals exact ⟨trivial, by omega⟩

theorem skipInterp_step_other (c : Char) (t : Str) (n : Nat)
    (h1 : c ≠ lbrace) (h2 : c ≠ rbrace) :
    skipInterp (c :: t) (n + 1) =
      ((skipInterp t (n + 1)).1, (skipInterp t (n + 1)).2 + 1) := by
  simp only [skipInterp]
  rw [if_neg h1, if_neg h2]

theorem skipInterp_step_open (t : Str) (n : Nat) :
    skipInterp (lbrace :: t) (n + 1) =
      ((skipInterp t (n + 2)).1, (skipInterp t (n + 2)).2 + 1) := by
  simp [skipInterp]

theorem skipInterp_step_close (t : Str) (n : Nat) :
    skipInterp (rbrace :: t) (n + 1 + 1) =
      ((skipInterp t (n + 1)).1, (skipInterp t (n + 1)).2 + 1) := by
  simp only [skipInterp]
  rw [if_neg (show ¬(rbrace = lbrace) by decide)]
  simp

/-- The interpolation skip passes over a balanced interpolation body
without changing the nesting level. -/
theorem skipInterp_consume :
    ∀ (i : ITree), iValid i = true → ∀ (l : Str) (n : Nat),
      skipInterp (iFlat i ++ l) (n + 1) =
        ((skipInterp l (n + 1)).1, (iFlat i).length + (skipInterp l (n + 1)).2)
  | ITree.inil, _, l, n => by simp [iFlat]
  | ITree.ich c r, hv, l, n => by
    simp only [iValid, Bool.and_eq_true, decide_eq_true_eq] at hv
    rw [show iFlat (ITree.ich c r) ++ l = c :: (iFlat r ++ l) by simp [iFlat]]
    rw [skipInterp_step_other c _ n hv.1.1 hv.1.2]
    rw [skipInterp_consume r hv.2 l n]
    simp only [iFlat, Prod.mk.injEq, List.length_cons]
    all_goals exact ⟨trivial, by omega⟩
  | ITree.iblk i r, hv, l, n => by
    simp only [iValid, Bool.and_eq_true] at hv
    rw [show iFlat (ITree.iblk i r) ++ l =
      lbrace :: (iFlat i ++ (rbrace :: (iFlat r ++ l))) by simp [iFlat]]
    rw [skipInterp_step_open]
    rw [skipInterp_consume i hv.1 (rbrace :: (iFlat r ++ l)) (n + 1)]
    rw [skipInterp_step_close]
    rw [skipInterp_consume r hv.2 l n]
    simp only [iFlat, Prod.mk.injEq, List.length_cons, List.length_append]
    all_goals exact ⟨trivial, by omega⟩

theorem skipTmpl_at_btick (fuel : Nat) (rest : Str) :
    skipTmplLoop (fuel + 1) (btick :: rest) = (btick :: rest, 0) := by
  cases rest <;> simp [skipTmplLoop]

theorem skipTmpl_step_esc (fuel : Nat) (c : Char) (t : Str) :
    skipTmplLoop (fuel + 1) (bsl :: c :: t) =
      ((skipTmplLoop fuel t).1, (skipTmplLoop fuel t).2 + 2) := by
  simp only [skipTmplLoop]
  rw [if_neg (show ¬(bsl = btick) by decide)]
  simp

theorem skipTmpl_step_plain (fuel : Nat) (c d : Char) (t : Str)
    (h1 : c ≠ btick) (h2 : c ≠ bsl) (h3 : ¬(c = '$' ∧ d = lbrace)) :
    skipTmplLoop (fuel + 1) (c :: d :: t) =
      ((skipTmplLoop fuel (d :: t)).1, (skipTmplLoop fuel (d :: t)).2 + 1) := by
  simp only [skipTmplLoop]
  rw [if_neg h1, if_neg h2, if_neg h3]

theorem skipTmpl_step_interp (fuel : Nat) (t : Str) :
    skipTmplLoop (fuel + 1) ('$' :: lbrace :: t) =
      ((skipTmplLoop fuel (skipInterp t 1).1).1,
        2 + (skipInterp t 1).2 + (skipTmplLoop fuel (skipInterp t 1).1).2) := by
  simp only [skipTmplLoop]
  rw [if_neg (show ¬('$' = btick) by decide), if_neg (show ¬('$' = bsl) by decide)]
  simp

theorem skipInterp_close1 (l : Str) : skipInterp (rbrace :: l) 1 = (l, 1) := by
  simp only [skipInterp]
  rw [if_neg (show ¬(rbrace = lbrace) by decide)]
  simp [skipInterp]

/-- The template skip consumes exactly a well-formed template body and
stops at the closing backtick, given sufficient fuel. -/
theorem skipTmpl_consume :
    ∀ (b : TTree), tValid b = true → ∀ (rest : Str) (fuel : Nat),
      (tFlat b ++ btick :: rest).length ≤ fuel →
      skipTmplLoop fuel (tFlat b ++ btick :: rest) = (btick :: rest, (tFlat b).length)
  | TTree.tnil, _, rest, fuel, hf => by
    obtain ⟨g, rfl⟩ : ∃ g, fuel = g + 1 := by
      cases fuel
      · simp at hf
      · exact ⟨_, rfl⟩
    simpa [tFlat] using skipTmpl_at_btick g rest
  | TTree.tch c r, hv, rest, fuel, hf => by
    simp only [tValid, Bool.and_eq_true, decide_eq_true_eq] at hv
    obtain ⟨⟨⟨h1, h2⟩, h3⟩, h4⟩ := hv
    obtain ⟨g, rfl⟩ : ∃ g, fuel = g + 1 := by
      cases fuel
      · simp [tFlat] at hf
      · exact ⟨_, rfl⟩
    have hX : tFlat r ++ btick :: rest ≠ [] := by simp
    obtain ⟨d, t, hXe⟩ := List.exists_cons_of_ne_nil hX
    have hlen : (tFlat r ++ btick :: rest).length ≤ g := by
      simp only [tFlat, List.cons_append, List.length_cons] at hf ⊢
      simp only [List.length_append, List.length_cons] at hf ⊢
      omega
    have ih := skipTmpl_consume r h4 rest g hlen
    rw [show tFlat (TTree.tch c r) ++ btick :: rest = c :: (tFlat r ++ btick :: rest) by
      simp [tFlat]]
    rw [hXe, skipTmpl_step_plain g c d t h1 h2 (fun hc => h3 hc.1), ← hXe, ih]
    simp only [tFlat, Prod.mk.injEq, List.length_cons]
    all_goals exact ⟨trivial, by omega⟩
  | TTree.tesc c r, hv, rest, fuel, hf => by
    simp only [tValid] at hv
    obtain ⟨g, rfl⟩ : ∃ g, fuel = g + 1 := by
      cases fuel
      · simp [tFlat] at hf
      · exact ⟨_, rfl⟩
    have hlen : (tFlat r ++ btick :: rest).length ≤ g := by
      simp only [tFlat, List.cons_append, List.length_cons, List.length_append] at hf ⊢
      omega
    have ih := skipTmpl_consume r hv rest g hlen
    rw [show tFlat (TTree.tesc c r) ++ btick :: rest =
      bsl :: c :: (tFlat r ++ btick :: rest) by simp [tFlat]]
    rw [skipTmpl_step_esc g c _, ih]
    simp only [tFlat, Prod.mk.injEq, List.length_cons]
    all_goals exact ⟨trivial, by omega⟩
  | TTree.tinterp i r, hv, rest, fuel, hf => by
    simp only [tValid, Bool.and_eq_true] at hv
    obtain ⟨g, rfl⟩ : ∃ g, fuel = g + 1 := by
      cases fuel
      · simp [tFlat] at hf
      · exact ⟨_, rfl⟩
    have hlen : (tFlat r ++ btick :: rest).length ≤ g := by
      simp only [tFlat, List.cons_append, List.length_cons, List.length_append] at hf ⊢
      omega
    have ih := skipTmpl_consume r hv.2 rest g hlen
    rw [show tFlat (TTree.tinterp i r) ++ btick :: rest =
      '$' :: lbrace :: (iFlat i ++ (rbrace :: (tFlat r ++ btick :: rest))) by
      simp [tFlat]]
    rw [skipTmpl_step_interp g _]
    rw [skipInterp_consume i hv.1 (rbrace :: (tFlat r ++ btick :: rest)) 0]
    rw [skipInterp_close1]
    rw [ih]
    simp only [tFlat, Prod.mk.injEq, List.length_cons, List.length_append]
    all_goals exact ⟨trivial, by omega⟩

/-- The scan result does not depend on the fuel, provided the fuel
covers the remaining text length. -/
theorem scanStable : ∀ (l : Str) (pos : Nat) (d : Int) (f1 f2 : Nat),
    l.length ≤ f1 → l.length ≤ f2 →
    scanLoopFuel f1 l pos d = scanLoopFuel f2 l pos d
  | [], _, _, f1, f2, _, _ => by
    cases f1 <;> cases f2 <;> rfl
  | c :: t, pos, d, f1, f2, h1, h2 => by
    obtain ⟨g1, rfl⟩ : ∃ g, f1 = g + 1 := by
      cases f1
      · simp at h1
      · exact ⟨_, rfl⟩
    obtain ⟨g2, rfl⟩ : ∃ g, f2 = g + 1 := by
      cases f2
      · simp at h2
      · exact ⟨_, rfl⟩
    simp only [List.length_cons] at h1 h2
    simp only [scanLoopFuel]
    by_cases hc1 : c = lbrace
    · simp only [if_pos hc1]
      exact scanStable t (pos + 1) (d + 1) g1 g2 (by omega) (by omega)
    · simp only [if_neg hc1]
      by_cases hc2 : c = rbrace
      · simp only [if_pos hc2]
        by_cases hd : d - 1 = 0
        · simp only [if_pos hd]
        · simp only [if_neg hd]
          exact scanStable t (pos + 1) (d - 1) g1 g2 (by omega) (by omega)
      · simp only [if_neg hc2]
        by_cases hc3 : c = dq ∨ c = squo
        · simp only [if_pos hc3]
          by_cases hr : (skipStr c t).1 = []
          · simp only [if_pos hr]
          · simp only [if_neg hr]
            have hle := skipStr_rest_le c t
            exact scanStable (skipStr c t).1.tail _ d g1 g2
              (by simp only [List.length_tail]; omega)
              (by simp only [List.length_tail]; omega)
        · simp only [if_neg hc3]
          by_cases hc4 : c = btick
          · simp only [if_pos hc4]
            by_cases hr : (skipTmpl t).1 = []
            · simp only [if_pos hr]
            · simp only [if_neg hr]
              have hle := skipTmpl_rest_le t
              exact scanStable (skipTmpl t).1.tail _ d g1 g2
                (by simp only [List.length_tail]; omega)
                (by simp only [List.length_tail]; omega)
          · simp only [if_neg hc4]
            exact scanStable t (pos + 1) d g1 g2 (by omega) (by omega)
termination_by l _ _ _ _ _ _ => l.length
decreasing_by
  · simp only [List.length_cons]; omega
  · simp only [List.length_cons]; omega
  · have hle := skipStr_rest_le c t
    have hne : (skipStr c t).1.length ≠ 0 := by
      simpa [List.length_eq_zero] using hr
    simp only [List.length_tail, List.length_cons]
    omega
  · have hle := skipTmpl_rest_le t
    have hne : (skipTmpl t).1.length ≠ 0 := by
      simpa [List.length_eq_zero] using hr
    simp only [List.length_tail, List.length_cons]
    omega
  · simp only [List.length_cons]; omega

/-- The brace scan passes over a well-formed function-body text without
changing the depth, ending wherever the rest of the text takes it. -/
theorem scanConsume :
    ∀ (b : BTree), bValid b = true → ∀ (l : Str) (pos : Nat) (d : Int) (fuel : Nat),
      1 ≤ d → (bFlat b ++ l).length ≤ fuel →
      scanLoopFuel fuel (bFlat b ++ l) pos d =
        scanLoopFuel l.length l (pos + (bFlat b).length) d
  | BTree.bnil, _, l, pos, d, fuel, _, hf => by
    rw [show bFlat BTree.bnil ++ l = l by simp [bFlat]]
    rw [scanStable l pos d fuel l.length (by simpa [bFlat] using hf) le_rfl]
    simp [bFlat]
  | BTree.bch c r, hv, l, pos, d, fuel, hd, hf => by
    simp only [bValid, Bool.and_eq_true, decide_eq_true_eq] at hv
    obtain ⟨⟨⟨⟨⟨n1, n2⟩, n3⟩, n4⟩, n5⟩, hvr⟩ := hv
    obtain ⟨g, rfl⟩ : ∃ g, fuel = g + 1 := by
      cases fuel
      · simp [bFlat] at hf
      · exact ⟨_, rfl⟩
    rw [show bFlat (BTree.bch c r) ++ l = c :: (bFlat r ++ l) by simp [bFlat]]
    simp only [scanLoopFuel]
    rw [if_neg n1, if_neg n2,
      if_neg (show ¬(c = dq ∨ c = squo) from fun h => h.elim n3 n4), if_neg n5]
    rw [scanConsume r hvr l (pos + 1) d g hd
      (by simp only [bFlat, List.cons_append, List.length_cons, List.length_append] at hf ⊢
          omega)]
    have hp : pos + 1 + (bFlat r).length = pos + (bFlat (BTree.bch c r)).length := by
      simp only [bFlat, List.length_cons]
      omega
    rw [hp]
  | BTree.bblk i r, hv, l, pos, d, fuel, hd, hf => by
    simp only [bValid, Bool.and_eq_true] at hv
    obtain ⟨hvi, hvr⟩ := hv
    obtain ⟨g, rfl⟩ : ∃ g, fuel = g + 1 := by
      cases fuel
      · simp [bFlat] at hf
      · exact ⟨_, rfl⟩
    rw [show bFlat (BTree.bblk i r) ++ l =
      lbrace :: (bFlat i ++ (rbrace :: (bFlat r ++ l))) by simp [bFlat]]
    simp only [scanLoopFuel]
    rw [if_pos trivial]
    rw [scanConsume i hvi (rbrace :: (bFlat r ++ l)) (pos + 1) (d + 1) g (by omega)
      (by simp only [bFlat, List.cons_append, List.length_cons, List.length_append] at hf ⊢
          omega)]
    rw [show (rbrace :: (bFlat r ++ l)).length = (bFlat r ++ l).length + 1 from rfl]
    simp only [scanLoopFuel]
    rw [if_neg (show ¬(rbrace = lbrace) by decide), if_pos trivial,
      if_neg (show ¬(d + 1 - 1 = 0) by omega)]
    rw [show d + 1 - 1 = d by omega]
    rw [scanConsume r hvr l (pos + 1 + (bFlat i).length + 1) d (bFlat r ++ l).length hd
      le_rfl]
    have hp : pos + 1 + (bFlat i).length + 1 + (bFlat r).length =
        pos + (bFlat (BTree.bblk i r)).length := by
      simp only [bFlat, List.length_cons, List.length_append]
      omega
    rw [hp]
  | BTree.bstr q body r, hv, l, pos, d, fuel, hd, hf => by
    simp only [bValid, Bool.and_eq_true, Bool.or_eq_true, decide_eq_true_eq] at hv
    obtain ⟨⟨hq, hqv⟩, hvr⟩ := hv
    have hnl : q ≠ lbrace := by rcases hq with rfl | rfl <;> decide
    have hnr : q ≠ rbrace := by rcases hq with rfl | rfl <;> decide
    have hnb : q ≠ bsl := by rcases hq with rfl | rfl <;> decide
    obtain ⟨g, rfl⟩ : ∃ g, fuel = g + 1 := by
      cases fuel
      · simp [bFlat] at hf
      · exact ⟨_, rfl⟩
    rw [show bFlat (BTree.bstr q body r) ++ l =
      q :: (qFlat body ++ q :: (bFlat r ++ l)) by simp [bFlat]]
    simp only [scanLoopFuel]
    rw [if_neg hnl, if_neg hnr, if_pos hq]
    rw [skipStr_consume q hnb body hqv (bFlat r ++ l)]
    rw [if_neg (show ¬((q :: (bFlat r ++ l), (qFlat body).length).1 = []) by simp)]
    rw [show ((q :: (bFlat r ++ l), (qFlat body).length).1.tail) = bFlat r ++ l from rfl]
    rw [show ((q :: (bFlat r ++ l), (qFlat body).length).2) = (qFlat body).length from rfl]
    rw [scanConsume r hvr l (pos + (qFlat body).length + 2) d g hd
      (by simp only [bFlat, List.cons_append, List.length_cons, List.length_append] at hf ⊢
          omega)]
    have hp : pos + (qFlat body).length + 2 + (bFlat r).length =
        pos + (bFlat (BTree.bstr q body r)).length := by
      simp only [bFlat, List.length_cons, List.length_append]
      omega
    rw [hp]
  | BTree.btmpl body r, hv, l, pos, d, fuel, hd, hf => by
    simp only [bValid, Bool.and_eq_true] at hv
    obtain ⟨hbv, hvr⟩ := hv
    obtain ⟨g, rfl⟩ : ∃ g, fuel = g + 1 := by
      cases fuel
      · simp [bFlat] at hf
      · exact ⟨_, rfl⟩
    rw [show bFlat (BTree.btmpl body r) ++ l =
      btick :: (tFlat body ++ btick :: (bFlat r ++ l)) by simp [bFlat]]
    simp only [scanLoopFuel]
    rw [if_neg (show ¬(btick = lbrace) by decide),
      if_neg (show ¬(btick = rbrace) by decide),
      if_neg (show ¬(btick = dq ∨ btick = squo) by decide),
      if_pos trivial]
    have htl : skipTmpl (tFlat body ++ btick :: (bFlat r ++ l)) =
        (btick :: (bFlat r ++ l), (tFlat body).length) := by
      unfold skipTmpl
      exact skipTmpl_consume body hbv (bFlat r ++ l) _ le_rfl
    rw [htl]
    rw [if_neg (show ¬((btick :: (bFlat r ++ l), (tFlat body).length).1 = []) by simp)]
    rw [show ((btick :: (bFlat r ++ l), (tFlat body).length).1.tail) = bFlat r ++ l from rfl]
    rw [show ((btick :: (bFlat r ++ l), (tFlat body).length).2) = (tFlat body).length from rfl]
    rw [scanConsume r hvr l (pos + (tFlat body).length + 2) d g hd
      (by simp only [bFlat, List.cons_append, List.length_cons, List.length_append] at hf ⊢
          omega)]
    have hp : pos + (tFlat body).length + 2 + (bFlat r).length =
        pos + (bFlat (BTree.btmpl body r)).length := by
      simp only [bFlat, List.length_cons, List.length_append]
      omega
    rw [hp]

theorem afr_success_scan_balanced (p : PatchDef) (c out anchor : Str) (idx bs : Nat)
    (ha : p.function_anchor = some anchor)
    (hf : findSub anchor c = some idx)
    (hb : findFrom [lbrace] (idx + anchor.length) c = some bs)
    (happ : apply_function_replace p c false = some out) :
    (scanLoop (c.drop bs) bs 0).2 = 0 := by
  by_cases hd : (scanLoop (c.drop bs) bs 0).2 ≠ 0
  · exfalso
    by_cases h2 : countOccs anchor c > 1
    · simp [apply_function_replace, ha, hf, h2] at happ
    · simp [apply_function_replace, ha, hf, h2, hb, hd] at happ
  · simpa using hd

/-- Claim C5: for content whose function anchor occurs exactly once and whose brace-delimited body is generated by the balanced-body grammar (covering quoted strings with backslash-escaped quotes and template literals with one level of interpolated braces), the brace scan of apply_function_replace ends exactly at the body's real closing brace and the replacement splices the new body against that true span; moreover every successful non-dry apply_function_replace has a balanced (depth-zero) scan. -/
theorem c5_theorem (p : PatchDef) (anchor nb pre post : Str) (body : BTree)
    (hpa : p.function_anchor = some anchor)
    (hnb : p.new_body = some nb)
    (hvb : bValid body = true)
    (hfind : findSub anchor (pre ++ anchor ++ lbrace :: bFlat body ++ rbrace :: post) =
      some pre.length)
    (hcount : countOccs anchor (pre ++ anchor ++ lbrace :: bFlat body ++ rbrace :: post) = 1) :
    scanLoop ((pre ++ anchor ++ lbrace :: bFlat body ++ rbrace :: post).drop
        (pre.length + anchor.length)) (pre.length + anchor.length) 0 =
      (pre.length + anchor.length + 1 + (bFlat body).length, 0) ∧
    apply_function_replace p (pre ++ anchor ++ lbrace :: bFlat body ++ rbrace :: post) false =
      some ((pre ++ anchor ++ lbrace :: bFlat body ++ rbrace :: post).take
          (funcStartOf (pre ++ anchor ++ lbrace :: bFlat body ++ rbrace :: post) pre.length)
        ++ nb ++ post) ∧
    (∀ (q : PatchDef) (c2 out2 a2 : Str) (idx2 bs2 : Nat),
      q.function_anchor = some a2 → findSub a2 c2 = some idx2 →
      findFrom [lbrace] (idx2 + a2.length) c2 = some bs2 →
      apply_function_replace q c2 false = some out2 →
      (scanLoop (c2.drop bs2) bs2 0).2 = 0) := by
  set C : Str := pre ++ anchor ++ lbrace :: bFlat body ++ rbrace :: post with hC
  have h1 : C.drop (pre.length + anchor.length) = lbrace :: (bFlat body ++ rbrace :: post) := by
    rw [hC]
    rw [show pre.length + anchor.length = (pre ++ anchor).length by simp]
    rw [show pre ++ anchor ++ lbrace :: bFlat body ++ rbrace :: post =
      (pre ++ anchor) ++ (lbrace :: (bFlat body ++ rbrace :: post)) by simp]
    exact List.drop_left (pre ++ anchor) _
  have h2 : scanLoop (C.drop (pre.length + anchor.length)) (pre.length + anchor.length) 0 =
      (pre.length + anchor.length + 1 + (bFlat body).length, 0) := by
    rw [h1]
    unfold scanLoop
    rw [show (lbrace :: (bFlat body ++ rbrace :: post)).length =
      (bFlat body ++ rbrace :: post).length + 1 from rfl]
    simp only [scanLoopFuel]
    rw [if_pos trivial]
    rw [show (0 : Int) + 1 = 1 by omega]
    rw [scanConsume body hvb (rbrace :: post) (pre.length + anchor.length + 1) 1
      (bFlat body ++ rbrace :: post).length (by omega) le_rfl]
    rw [show (rbrace :: post).length = post.length + 1 from rfl]
    simp only [scanLoopFuel]
    rw [if_neg (show ¬(rbrace = lbrace) by decide), if_pos trivial,
      if_pos (show (1 : Int) - 1 = 0 by omega)]
    rw [show (1 : Int) - 1 = 0 by omega]
  refine ⟨h2, ?_, ?_⟩
  · have hne1 : ¬ countOccs anchor C > 1 := by omega
    have hff : findFrom [lbrace] (pre.length + anchor.length) C =
        some (pre.length + anchor.length) := by
      unfold findFrom
      rw [h1]
      simp [findSub, isPre]
    have h3 : C.drop (pre.length + anchor.length + 1 + (bFlat body).length + 1) = post := by
      rw [hC]
      rw [show pre ++ anchor ++ lbrace :: bFlat body ++ rbrace :: post =
        ((pre ++ anchor) ++ lbrace :: bFlat body ++ [rbrace]) ++ post by simp]
      rw [show pre.length + anchor.length + 1 + (bFlat body).length + 1 =
        ((pre ++ anchor) ++ lbrace :: bFlat body ++ [rbrace]).length by simp; omega]
      exact List.drop_left _ _
    simp only [apply_function_replace, hpa, hfind, hnb]
    rw [if_neg hne1]
    rw [hff]
    simp only [h2]
    simp [h3]
  · intro q c2 out2 a2 idx2 bs2 ha2 hf2 hb2 happ2
    exact afr_success_scan_balanced q c2 out2 a2 idx2 bs2 ha2 hf2 hb2 happ2

def c5anchor : Str := lc "fn f"

def c5pre : Str := lc "a "

def c5post : Str := lc " z"

def c5nb : Str := lc "NB"

def c5body : BTree :=
  BTree.bch 'r' (BTree.bstr dq
    (QTree.qch 'a' (QTree.qesc dq (QTree.qch 'b' QTree.qnil)))
    (BTree.btmpl
      (TTree.tch 'x' (TTree.tinterp
        (ITree.ich 'f' (ITree.ich '('
          (ITree.iblk (ITree.ich 'y' (ITree.ich ':' (ITree.ich '1' ITree.inil)))
            (ITree.ich ')' ITree.inil))))
        TTree.tnil))
      BTree.bnil))

def c5patch : PatchDef :=
  { patch_type := "function_replace",
    function_anchor := some c5anchor, new_body := some c5nb }

/-- Witness for claim C5 at a concrete body containing a double-quoted string with an escaped quote and a template literal with one level of interpolated braces. -/
theorem c5_witness :
    c5patch.function_anchor = some c5anchor ∧
    c5patch.new_body = some c5nb ∧
    bValid c5body = true ∧
    findSub c5anchor (c5pre ++ c5anchor ++ lbrace :: bFlat c5body ++ rbrace :: c5post) =
      some c5pre.length ∧
    countOccs c5anchor (c5pre ++ c5anchor ++ lbrace :: bFlat c5body ++ rbrace :: c5post) = 1 ∧
    (scanLoop ((c5pre ++ c5anchor ++ lbrace :: bFlat c5body ++ rbrace :: c5post).drop
        (c5pre.length + c5anchor.length)) (c5pre.length + c5anchor.length) 0 =
      (c5pre.length + c5anchor.length + 1 + (bFlat c5body).length, 0) ∧
    apply_function_replace c5patch
        (c5pre ++ c5anchor ++ lbrace :: bFlat c5body ++ rbrace :: c5post) false =
      some ((c5pre ++ c5anchor ++ lbrace :: bFlat c5body ++ rbrace :: c5post).take
          (funcStartOf (c5pre ++ c5anchor ++ lbrace :: bFlat c5body ++ rbrace :: c5post)
            c5pre.length)
        ++ c5nb ++ c5post) ∧
    (∀ (q : PatchDef) (c2 out2 a2 : Str) (idx2 bs2 : Nat),
      q.function_anchor = some a2 → findSub a2 c2 = some idx2 →
      findFrom [lbrace] (idx2 + a2.length) c2 = some bs2 →
      apply_function_replace q c2 false = some out2 →
      (scanLoop (c2.drop bs2) bs2 0).2 = 0)) :=
  ⟨rfl, rfl, by decide, by decide, by decide,
    c5_theorem c5patch c5anchor c5nb c5pre c5post c5body rfl rfl (by decide)
      (by decide) (by decide)⟩
